import Mathlib

/-!
Verification of the core subsystems of the Perevod4ik translation assistant:
the revision-history engine (`app/services/versioning.py`), the shared rate
limiter and background worker (`app/services/workers.py`), the batch
translation scheduler (`app/main.py`), and the change highlighter built on
`difflib.SequenceMatcher` (`app/diff_utils.py`).

Python code is shallowly embedded: each method becomes a pure Lean function
over an explicit state value; impure inputs (timestamps, clock readings,
provider results) become explicit parameters; the `save_versions` disk write
becomes an explicit write event in the return value.
-/

/-! ## Revision history (`app/services/versioning.py`) -/

/-- One stored revision: `{"timestamp": ..., "text": ...}`. -/
structure Revision where
  timestamp : String
  text : String
deriving DecidableEq, Repr

/-- State of `VersionManager` (a dataclass in the source): the persistence
path, the list of revisions, the cursor `index` (an `int`, `-1` when the
history is empty), and the `_dirty` flag. -/
structure VersionManager where
  path : String
  versions : List Revision
  index : Int
  dirty : Bool
deriving DecidableEq, Repr

/-- `VersionManager.__post_init__`: the revision list is reconstructed from
durable storage and the cursor is set to the last index when the loaded
list is non-empty (otherwise it keeps its dataclass default `-1`).
`load_versions` itself is not under `src/`; its result is the explicit
`loaded` parameter, per the spec's persistence interface
(`loadRevisions(key) -> ordered sequence of Revision`). -/
def mkVersionManager (path : String) (loaded : List Revision) : VersionManager :=
  { path := path
    versions := loaded
    index := if loaded = [] then -1 else (loaded.length : Int) - 1
    dirty := false }

/-- `VersionManager.add_version`: no-op when the revision at the cursor holds
the same text, otherwise truncate everything after the cursor, append a new
revision (`ts` stands for `datetime.utcnow().isoformat()`), move the cursor
to the new last index and set the dirty flag. -/
def add_version (vm : VersionManager) (ts text : String) : VersionManager :=
  if 0 ≤ vm.index ∧ (vm.versions[vm.index.toNat]?).map Revision.text = some text then
    vm
  else
    let kept := vm.versions.take (vm.index + 1).toNat
    { vm with
      versions := kept ++ [Revision.mk ts text]
      index := ((kept ++ [Revision.mk ts text]).length : Int) - 1
      dirty := true }

/-- `VersionManager.undo`: step back and return the text at the new cursor,
or return `None` leaving the state unchanged. -/
def undo (vm : VersionManager) : Option String × VersionManager :=
  if 0 < vm.index then
    let vm' := { vm with index := vm.index - 1 }
    ((vm'.versions[vm'.index.toNat]?).map Revision.text, vm')
  else
    (none, vm)

/-- `VersionManager.redo`: step forward and return the text at the new
cursor, or return `None` leaving the state unchanged. -/
def redo (vm : VersionManager) : Option String × VersionManager :=
  if vm.index < (vm.versions.length : Int) - 1 then
    let vm' := { vm with index := vm.index + 1 }
    ((vm'.versions[vm'.index.toNat]?).map Revision.text, vm')
  else
    (none, vm)

/-- `VersionManager.flush`: no I/O unless dirty; otherwise persist the whole
revision list and clear the flag.  The `save_versions` call (not under
`src/`) is modelled as the returned write event `some (versions, path)`. -/
def flush (vm : VersionManager) : VersionManager × Option (List Revision × String) :=
  if vm.dirty = false then
    (vm, none)
  else
    ({ vm with dirty := false }, some (vm.versions, vm.path))

/-- States of `VersionManager` reachable from construction via the public
operations. -/
inductive Reachable : VersionManager → Prop where
  | load (p : String) (l : List Revision) : Reachable (mkVersionManager p l)
  | add (vm : VersionManager) (ts t : String) :
      Reachable vm → Reachable (add_version vm ts t)
  | stepBack (vm : VersionManager) : Reachable vm → Reachable (undo vm).2
  | stepForward (vm : VersionManager) : Reachable vm → Reachable (redo vm).2
  | persist (vm : VersionManager) : Reachable vm → Reachable (flush vm).1

/-! ## Rate limiter and workers (`app/services/workers.py`)

Real time is idealised over `ℚ`: `time.perf_counter()` readings become
explicit rational arguments, `time.sleep(d)` is assumed to sleep exactly
`d`, and the mutex serialising `RateLimiter.wait` is modelled by feeding the
callers' clock readings through the limiter state one at a time. -/

/-- `RateLimiter.__init__`: `interval = 1.0 / rps if rps > 0 else 0.0`. -/
def mkInterval (rps : ℚ) : ℚ :=
  if 0 < rps then 1 / rps else 0

/-- Result of one `RateLimiter.wait` call: the time at which the call
completes (the re-read `perf_counter()` stored into `last_call`) and
whether `time.sleep` was invoked. -/
structure WaitResult where
  completion : ℚ
  slept : Bool
deriving Repr

/-- `RateLimiter.wait` under the lock: read `now`, compute
`delay = last_call + interval - now`, sleep when positive, then store the
new completion time. -/
def waitStep (interval last now : ℚ) : WaitResult :=
  if 0 < last + interval - now then ⟨now + (last + interval - now), true⟩ else ⟨now, false⟩

/-- Completion times of a serialized sequence of `wait` calls whose clock
readings are `nows`, starting from stored time `last`. -/
def waitCompletions (interval : ℚ) : ℚ → List ℚ → List ℚ
  | _, [] => []
  | last, now :: rest =>
    let c := (waitStep interval last now).completion
    c :: waitCompletions interval c rest

/-- A delivered worker signal: `finished.emit(result)` or
`error.emit(exc)`. -/
inductive RunSignal (α ε : Type) where
  | finished (v : α)
  | error (e : ε)
deriving DecidableEq, Repr

/-- `Worker.run`: the rate-limiter wait may raise (`waitExc`), otherwise the
wrapped callable either raises or returns (`call`); the `try/except/else`
emits `error` for any exception and `finished` for a normal result.  The
returned list is the sequence of signals emitted by this run. -/
def workerRun {α ε : Type} (waitExc : Option ε) (call : Except ε α) : List (RunSignal α ε) :=
  match waitExc with
  | some e => [RunSignal.error e]
  | none =>
    match call with
    | Except.error e => [RunSignal.error e]
    | Except.ok v => [RunSignal.finished v]

/-! ## Batch scheduler (`app/main.py`, `MainController`)

The UI state relevant to C1: the FIFO `batch_queue`, the set of started
workers whose result has not yet been handled (`inFlight`, kept as a list so
that "at most one in flight" is a provable property rather than a modelling
artifact), whether the translate buttons are enabled (`idle`), and the
chronological log of handled per-chapter results (`handled`). -/

/-- Outcome of one chapter's translation job, as delivered by the worker. -/
inductive Outcome where
  | success (text : String)
  | failure (err : String)
deriving DecidableEq, Repr

/-- Scheduler state. -/
structure BatchState (α : Type) where
  queue : List α
  inFlight : List α
  idle : Bool
  handled : List (α × Outcome)
deriving DecidableEq, Repr

/-- `MainController._process_queue`: when the queue is empty, re-enable the
translate buttons (Idle); otherwise dequeue the head and start a worker for
it. -/
def process_queue {α : Type} (s : BatchState α) : BatchState α :=
  match s.queue with
  | [] => { s with idle := true }
  | c :: rest => { s with queue := rest, inFlight := s.inFlight ++ [c] }

/-- Handling of one worker result (`_on_batch_translation_finished` or
`_on_batch_translation_error`): record the handled outcome for the worker's
chapter, then call `_process_queue` again. -/
def deliver {α : Type} (o : Outcome) (s : BatchState α) : BatchState α :=
  match s.inFlight with
  | [] => s
  | c :: rest =>
    process_queue { queue := s.queue, inFlight := rest, idle := s.idle
                    handled := s.handled ++ [(c, o)] }

/-- `MainController.batch_translate` on a non-empty chapter list: store the
queue, disable the buttons, and run `_process_queue` once. -/
def batch_translate {α : Type} (chapters : List α) : BatchState α :=
  process_queue { queue := chapters, inFlight := [], idle := false, handled := [] }

/-- Emptiness of a list is decidable without decidable equality on the
elements. -/
instance decListEqNil {β : Type} (l : List β) : Decidable (l = []) :=
  match l with
  | [] => isTrue rfl
  | _ :: _ => isFalse (by simp)

/-- The sequence of scheduler states observed from `s` onwards, delivering
each in-flight worker's result (as given by `oracle`) until no worker is in
flight.  Each `deliver` consumes one in-flight worker and `process_queue`
moves at most one queue item into flight, so the total strictly
decreases. -/
def drain {α : Type} (oracle : α → Outcome) (s : BatchState α) : List (BatchState α) :=
  if h : s.inFlight = [] then [s]
  else s :: drain oracle (deliver (oracle (s.inFlight.head h)) s)
termination_by s.queue.length + s.inFlight.length
decreasing_by
  obtain ⟨c, rest, hcr⟩ := List.exists_cons_of_ne_nil h
  simp only [deliver, hcr]
  cases hq : s.queue with
  | nil => simp [process_queue, hq, hcr]
  | cons q qs => simp [process_queue, hq, hcr]

/-! ## Change highlighter (`app/diff_utils.py`)

`DiffHighlighter.update_diff` recomputes the changed ranges as the `(j1, j2)`
spans of the non-`equal` opcodes of `difflib.SequenceMatcher(a=base,
b=current)`.  The matcher is embedded below from the CPython `difflib`
source: `__chain_b` (with the default `autojunk=True` and no `isjunk`, as
`DiffHighlighter` constructs it), `find_longest_match`, the queue-driven
`get_matching_blocks` with merging of adjacent blocks and the `(la, lb, 0)`
terminator, and `get_opcodes`.  Texts are embedded as `List Char`. -/

/-- Opcode tag of `SequenceMatcher.get_opcodes`. -/
inductive DiffTag where
  | replace
  | delete
  | insert
  | equal
deriving DecidableEq, Repr

/-- `__chain_b` autojunk: with `len(b) >= 200`, elements occurring more than
`len(b) // 100 + 1` times are "popular" and dropped from `b2j`. -/
def isPopular (b : List Char) (x : Char) : Bool :=
  decide (200 ≤ b.length) && decide (b.length / 100 + 1 < b.count x)

/-- `b2j[x]`: the ascending positions of `x` in `b`; empty for popular
elements.  (`isjunk` is `None` for `DiffHighlighter`, so the junk set is
empty.) -/
def b2j (b : List Char) (x : Char) : List Nat :=
  if isPopular b x then []
  else (List.range b.length).filter (fun j => b[j]? = some x)

/-- Running best match `(besti, bestj, bestsize)` of `find_longest_match`. -/
structure Best where
  besti : Nat
  bestj : Nat
  bestsize : Nat
deriving DecidableEq, Repr

/-- Inner loop of `find_longest_match` over the candidate positions `js` of
`a[i]` in `b`: `continue` when `j < blo`, `break` when `j ≥ bhi` (the
position list is ascending), otherwise store
`k = newj2len[j] = j2len.get(j-1, 0) + 1` and update the best match when
`k > bestsize`.  The dicts are total functions defaulting to `0`. -/
def flmInner (i blo bhi : Nat) (j2len : Nat → Nat) :
    List Nat → (Nat → Nat) → Best → (Nat → Nat) × Best
  | [], newj2len, best => (newj2len, best)
  | j :: js, newj2len, best =>
    if j < blo then flmInner i blo bhi j2len js newj2len best
    else if bhi ≤ j then (newj2len, best)
    else
      let k := (if j = 0 then 0 else j2len (j - 1)) + 1
      flmInner i blo bhi j2len js (fun j' => if j' = j then k else newj2len j')
        (if best.bestsize < k then Best.mk (i + 1 - k) (j + 1 - k) k else best)

/-- Row loop of `find_longest_match`: `for i in range(alo, ahi)`, rebuilding
`newj2len` from scratch each row. -/
def flmRows (a b : List Char) (blo bhi : Nat) :
    List Nat → (Nat → Nat) → Best → Best
  | [], _, best => best
  | i :: rows, j2len, best =>
    let step := flmInner i blo bhi j2len (b2j b (a.getD i default)) (fun _ => 0) best
    flmRows a b blo bhi rows step.1 step.2

/-- The element comparison `a[x] == b[y]` of the extension loops (always in
range when called; `false` out of range). -/
def charEq (a : List Char) (x : Nat) (b : List Char) (y : Nat) : Bool :=
  match a[x]?, b[y]? with
  | some ca, some cb => ca == cb
  | _, _ => false

/-- Body of the first extension loop, recursing on an explicit iteration
bound: every iteration decreases `besti` by one under the guard
`alo < besti`, so `besti` iterations always suffice and at bound `0` the
guard (`alo < 0`) is false anyway. -/
def extendLeftGo (a b : List Char) (alo blo : Nat) : Nat → Best → Best
  | 0, best => best
  | fuel + 1, best =>
    if alo < best.besti ∧ blo < best.bestj
        ∧ charEq a (best.besti - 1) b (best.bestj - 1) = true then
      extendLeftGo a b alo blo fuel
        (Best.mk (best.besti - 1) (best.bestj - 1) (best.bestsize + 1))
    else best

/-- First extension loop of `find_longest_match`: grow the best match
leftwards while the preceding elements match (`bjunk` is empty, so the
`not isbjunk` test always passes and the later junk loops never fire). -/
def extendLeft (a b : List Char) (alo blo : Nat) (best : Best) : Best :=
  extendLeftGo a b alo blo best.besti best

/-- Body of the second extension loop, recursing on an explicit iteration
bound: every iteration increases `bestsize` by one under the guard
`besti + bestsize < ahi`, so `ahi - (besti + bestsize)` iterations always
suffice and at bound `0` the guard is false anyway. -/
def extendRightGo (a b : List Char) (ahi bhi : Nat) : Nat → Best → Best
  | 0, best => best
  | fuel + 1, best =>
    if best.besti + best.bestsize < ahi ∧ best.bestj + best.bestsize < bhi
        ∧ charEq a (best.besti + best.bestsize) b (best.bestj + best.bestsize) = true then
      extendRightGo a b ahi bhi fuel (Best.mk best.besti best.bestj (best.bestsize + 1))
    else best

/-- Second extension loop of `find_longest_match`: grow the best match
rightwards while the following elements match. -/
def extendRight (a b : List Char) (ahi bhi : Nat) (best : Best) : Best :=
  extendRightGo a b ahi bhi (ahi - (best.besti + best.bestsize)) best

/-- `find_longest_match(alo, ahi, blo, bhi)`. -/
def find_longest_match (a b : List Char) (alo ahi blo bhi : Nat) : Best :=
  extendRight a b ahi bhi
    (extendLeft a b alo blo
      (flmRows a b blo bhi (List.range' alo (ahi - alo)) (fun _ => 0) (Best.mk alo blo 0)))

/-- One matching block `(a, b, size)`. -/
structure Block where
  ai : Nat
  bj : Nat
  size : Nat
deriving DecidableEq, Repr

/-- The recursive part of `get_matching_blocks` (the source keeps an explicit
queue and sorts at the end; recursing left, emitting, then recursing right
yields the same sorted list because the sub-blocks lie strictly left and
right of the emitted block).  `fuel` bounds the recursion depth;
`(ahi - alo) + (bhi - blo)` strictly decreases on every recursive call, so
the fuel passed by `matching_blocks` is never exhausted. -/
def matching_blocks_fuel (a b : List Char) :
    Nat → Nat → Nat → Nat → Nat → List Block
  | 0, _, _, _, _ => []
  | fuel + 1, alo, ahi, blo, bhi =>
    let m := find_longest_match a b alo ahi blo bhi
    if m.bestsize = 0 then []
    else
      (if alo < m.besti ∧ blo < m.bestj then
        matching_blocks_fuel a b fuel alo m.besti blo m.bestj
      else [])
      ++ [Block.mk m.besti m.bestj m.bestsize]
      ++ (if m.besti + m.bestsize < ahi ∧ m.bestj + m.bestsize < bhi then
        matching_blocks_fuel a b fuel (m.besti + m.bestsize) ahi (m.bestj + m.bestsize) bhi
      else [])

/-- All (unmerged, sorted) matching blocks of the two sequences. -/
def matching_blocks (a b : List Char) : List Block :=
  matching_blocks_fuel a b (a.length + b.length) 0 a.length 0 b.length

/-- The merging pass of `get_matching_blocks`: adjacent blocks are fused,
zero-size pending blocks (only the initial `(0,0,0)`) are not emitted. -/
def mergeAdj : Block → List Block → List Block
  | cur, [] => if cur.size = 0 then [] else [cur]
  | cur, blk :: rest =>
    if cur.ai + cur.size = blk.ai ∧ cur.bj + cur.size = blk.bj then
      mergeAdj (Block.mk cur.ai cur.bj (cur.size + blk.size)) rest
    else
      (if cur.size = 0 then [] else [cur]) ++ mergeAdj blk rest

/-- `get_matching_blocks`: merged blocks plus the `(la, lb, 0)`
terminator. -/
def get_matching_blocks (a b : List Char) : List Block :=
  mergeAdj (Block.mk 0 0 0) (matching_blocks a b) ++ [Block.mk a.length b.length 0]

/-- One opcode `(tag, i1, i2, j1, j2)`. -/
structure Opcode where
  tag : DiffTag
  a1 : Nat
  a2 : Nat
  b1 : Nat
  b2 : Nat
deriving DecidableEq, Repr

/-- The gap opcode emitted before a block: `replace` when both cursors lag,
`delete` when only the `a` cursor lags, `insert` when only the `b` cursor
lags, nothing otherwise. -/
def gapOp (i j ai bj : Nat) : List Opcode :=
  if i < ai ∧ j < bj then [Opcode.mk DiffTag.replace i ai j bj]
  else if i < ai then [Opcode.mk DiffTag.delete i ai j bj]
  else if j < bj then [Opcode.mk DiffTag.insert i ai j bj]
  else []

/-- The `equal` opcode of one matching block (`if size:`). -/
def eqOp (blk : Block) : List Opcode :=
  if blk.size = 0 then []
  else [Opcode.mk DiffTag.equal blk.ai (blk.ai + blk.size) blk.bj (blk.bj + blk.size)]

/-- The loop of `get_opcodes`: walk the matching blocks keeping the cursor
`(i, j)`, emit a gap opcode before each block and an `equal` opcode for each
block of positive size. -/
def opcodesFrom : Nat → Nat → List Block → List Opcode
  | _, _, [] => []
  | i, j, blk :: rest =>
    gapOp i j blk.ai blk.bj ++ eqOp blk
    ++ opcodesFrom (blk.ai + blk.size) (blk.bj + blk.size) rest

/-- `get_opcodes`. -/
def get_opcodes (a b : List Char) : List Opcode :=
  opcodesFrom 0 0 (get_matching_blocks a b)

/-- `DiffHighlighter.update_diff`: with a falsy (empty) baseline the range
list is cleared; otherwise it is the `(j1, j2)` span of every non-`equal`
opcode of `SequenceMatcher(a=base, b=current)`. -/
def update_diff (base current : List Char) : List (Nat × Nat) :=
  if base = [] then []
  else (get_opcodes base current).filterMap
    (fun op => if op.tag = DiffTag.equal then none else some (op.b1, op.b2))

/-- A document position lies in one of the reported changed ranges. -/
def coveredBy (rs : List (Nat × Nat)) (p : Nat) : Prop :=
  ∃ r ∈ rs, r.1 ≤ p ∧ p < r.2

/-- A document position lies in the span of an `equal` opcode, i.e. the
alignment matches the current text to the baseline there. -/
def inEqualSpan (ops : List Opcode) (p : Nat) : Prop :=
  ∃ op ∈ ops, op.tag = DiffTag.equal ∧ op.b1 ≤ p ∧ p < op.b2

/-- Specification of a valid best match: within the window and matching
element-wise. -/
def BestSpec (a b : List Char) (alo ahi blo bhi : Nat) (m : Best) : Prop :=
  alo ≤ m.besti ∧ blo ≤ m.bestj
  ∧ m.besti + m.bestsize ≤ ahi ∧ m.bestj + m.bestsize ≤ bhi
  ∧ ∀ t, t < m.bestsize → ∃ ch, a[m.besti + t]? = some ch ∧ b[m.bestj + t]? = some ch

/-- Specification of a `j2len` row table (row `i`): positive entries record a
match of that length ending at `(i, j)`, staying inside `[blo, bhi)` on the
`b` side and reaching back at most to `alo` on the `a` side. -/
def J2Spec (a b : List Char) (alo blo bhi i : Nat) (f : Nat → Nat) : Prop :=
  ∀ j, 0 < f j →
    blo ≤ j ∧ j < bhi ∧ f j ≤ i + 1 - alo ∧ f j ≤ j + 1 - blo
    ∧ ∀ t, t < f j → ∃ ch, a[i - t]? = some ch ∧ b[j - t]? = some ch

/-- Validity of one matching block inside a window. -/
def BlockValid (a b : List Char) (alo ahi blo bhi : Nat) (blk : Block) : Prop :=
  alo ≤ blk.ai ∧ blo ≤ blk.bj
  ∧ blk.ai + blk.size ≤ ahi ∧ blk.bj + blk.size ≤ bhi ∧ 1 ≤ blk.size
  ∧ ∀ t, t < blk.size → ∃ ch, a[blk.ai + t]? = some ch ∧ b[blk.bj + t]? = some ch

/-- Two blocks in sorted, non-overlapping order. -/
def BlockLe (x y : Block) : Prop :=
  x.ai + x.size ≤ y.ai ∧ x.bj + x.size ≤ y.bj

/-- Length of the longest popularity-respecting diagonal run of `b` ending
just before row `i` (`dia b (i+1)` is the run through row `i`); used for the
identical-texts theorem. -/
def dia (b : List Char) : Nat → Nat
  | 0 => 0
  | i + 1 => if isPopular b (b.getD i default) then 0 else dia b i + 1

/-! ### Lemmas and theorems about the revision history -/

/-- The constructor always sets the cursor to the last index (which is `-1`
exactly for an empty loaded history). -/
theorem mk_index_eq (p : String) (l : List Revision) :
    (mkVersionManager p l).index = (l.length : Int) - 1 := by
  by_cases hl : l = [] <;> simp [mkVersionManager, hl]

/-- Casting helper: appending one element adds one to the length. -/
theorem length_append_single (l : List Revision) (x : Revision) :
    ((l ++ [x]).length : Int) = (l.length : Int) + 1 := by
  rw [List.length_append]
  push_cast
  simp

/-- Repeating `add_version` with the same text is a no-op the second time. -/
theorem add_version_twice (w : VersionManager) (ts1 ts2 t : String) :
    add_version (add_version w ts1 t) ts2 t = add_version w ts1 t := by
  by_cases hg : 0 ≤ w.index ∧ (w.versions[w.index.toNat]?).map Revision.text = some t
  · have h1 : add_version w ts1 t = w := by rw [add_version, if_pos hg]
    rw [h1, add_version, if_pos hg]
  · have h1 : add_version w ts1 t =
      { w with
        versions := w.versions.take (w.index + 1).toNat ++ [Revision.mk ts1 t]
        index := ((w.versions.take (w.index + 1).toNat ++ [Revision.mk ts1 t]).length : Int) - 1
        dirty := true } := by
      rw [add_version, if_neg hg]
    rw [h1, add_version, if_pos ?_]
    refine ⟨?_, ?_⟩
    · show (0 : Int) ≤ ((w.versions.take (w.index + 1).toNat ++ [Revision.mk ts1 t]).length : Int) - 1
      rw [length_append_single]
      omega
    · show ((w.versions.take (w.index + 1).toNat
          ++ [Revision.mk ts1 t])[((((w.versions.take (w.index + 1).toNat
            ++ [Revision.mk ts1 t]).length : Int)) - 1).toNat]?).map Revision.text = some t
      have hidx : ((((w.versions.take (w.index + 1).toNat ++ [Revision.mk ts1 t]).length : Int))
          - 1).toNat = (w.versions.take (w.index + 1).toNat).length := by
        rw [length_append_single]
        omega
      rw [hidx, List.getElem?_concat_length]
      rfl

/-- C4: when the history is empty or the text differs from the revision at
the cursor, `add_version` truncates the redo branch, appends a fresh
revision, moves the cursor to the new last index, sets the dirty flag, and
afterwards `redo` reports no next revision. -/
theorem add_version_truncates_and_appends (vm : VersionManager) (ts text : String)
    (h : vm.versions = [] ∨ ∀ r, vm.versions[vm.index.toNat]? = some r → r.text ≠ text) :
    (add_version vm ts text).versions
      = vm.versions.take (vm.index + 1).toNat ++ [Revision.mk ts text]
    ∧ (add_version vm ts text).index
      = (((add_version vm ts text).versions.length : Int) - 1)
    ∧ (add_version vm ts text).dirty = true
    ∧ redo (add_version vm ts text) = (none, add_version vm ts text) := by
  have hg : ¬(0 ≤ vm.index ∧ (vm.versions[vm.index.toNat]?).map Revision.text = some text) := by
    rintro ⟨h1, h2⟩
    rcases Option.map_eq_some'.1 h2 with ⟨r, hr, hrt⟩
    rcases h with h | h
    · rw [h] at hr; simp at hr
    · exact h r hr hrt
  have hv : add_version vm ts text =
      { vm with
        versions := vm.versions.take (vm.index + 1).toNat ++ [Revision.mk ts text]
        index := ((vm.versions.take (vm.index + 1).toNat ++ [Revision.mk ts text]).length : Int) - 1
        dirty := true } := by
    rw [add_version, if_neg hg]
  refine ⟨by rw [hv], by rw [hv], by rw [hv], ?_⟩
  rw [hv, redo, if_neg (by simp)]

/-- C4 witness: appending to an empty history produces exactly one revision
and sets the dirty flag. -/
theorem add_version_truncates_and_appends_witness :
    (add_version ⟨"p", [], -1, false⟩ "t" "D").versions = [⟨"t", "D"⟩]
    ∧ (add_version ⟨"p", [], -1, false⟩ "t" "D").dirty = true := by
  have h := add_version_truncates_and_appends ⟨"p", [], -1, false⟩ "t" "D" (Or.inl rfl)
  exact ⟨by rw [h.1]; rfl, h.2.2.1⟩

/-- C5: when the text at the cursor equals the argument, `add_version` is a
no-op, and in general calling `add_version` twice in succession with the
same text equals calling it once. -/
theorem add_version_idempotent_noop (vm : VersionManager) (ts t : String)
    (h0 : 0 ≤ vm.index)
    (h1 : (vm.versions[vm.index.toNat]?).map Revision.text = some t) :
    add_version vm ts t = vm
    ∧ ∀ (w : VersionManager) (ts1 ts2 : String),
        add_version (add_version w ts1 t) ts2 t = add_version w ts1 t :=
  ⟨by rw [add_version, if_pos ⟨h0, h1⟩], fun w ts1 ts2 => add_version_twice w ts1 ts2 t⟩

/-- C5 witness: saving the identical text twice leaves the one-revision
history untouched. -/
theorem add_version_idempotent_noop_witness :
    add_version ⟨"p", [⟨"1", "A"⟩], 0, false⟩ "2" "A" = ⟨"p", [⟨"1", "A"⟩], 0, false⟩ :=
  (add_version_idempotent_noop ⟨"p", [⟨"1", "A"⟩], 0, false⟩ "2" "A" (by decide) rfl).1

/-- C6: `undo` steps back and returns the text at the new cursor exactly when
the cursor is positive, otherwise it returns `none` with no state change;
symmetrically `redo` steps forward exactly when the cursor is below the last
index. -/
theorem undo_redo_spec (vm : VersionManager) :
    (0 < vm.index →
      (undo vm).2 = { vm with index := vm.index - 1 }
      ∧ (undo vm).1 = (vm.versions[(vm.index - 1).toNat]?).map Revision.text)
    ∧ (vm.index ≤ 0 → undo vm = (none, vm))
    ∧ (vm.index < (vm.versions.length : Int) - 1 →
      (redo vm).2 = { vm with index := vm.index + 1 }
      ∧ (redo vm).1 = (vm.versions[(vm.index + 1).toNat]?).map Revision.text)
    ∧ ((vm.versions.length : Int) - 1 ≤ vm.index → redo vm = (none, vm)) := by
  refine ⟨fun h => ?_, fun h => ?_, fun h => ?_, fun h => ?_⟩
  · rw [undo, if_pos h]; exact ⟨rfl, rfl⟩
  · rw [undo, if_neg (by omega)]
  · rw [redo, if_pos h]; exact ⟨rfl, rfl⟩
  · rw [redo, if_neg (by omega)]

/-- C6 witness: on a two-revision history, `undo` from the last index returns
the first text and `redo` from the first index returns the second text. -/
theorem undo_redo_spec_witness :
    (undo ⟨"p", [⟨"1", "A"⟩, ⟨"2", "B"⟩], 1, false⟩).1 = some "A"
    ∧ (redo ⟨"p", [⟨"1", "A"⟩, ⟨"2", "B"⟩], 0, false⟩).1 = some "B"
    ∧ undo ⟨"p", [⟨"1", "A"⟩], 0, false⟩ = (none, ⟨"p", [⟨"1", "A"⟩], 0, false⟩) := by
  refine ⟨?_, ?_, ?_⟩
  · have h := (undo_redo_spec ⟨"p", [⟨"1", "A"⟩, ⟨"2", "B"⟩], 1, false⟩).1 (by decide)
    rw [h.2]; rfl
  · have h := (undo_redo_spec ⟨"p", [⟨"1", "A"⟩, ⟨"2", "B"⟩], 0, false⟩).2.2.1 (by decide)
    rw [h.2]; rfl
  · exact (undo_redo_spec ⟨"p", [⟨"1", "A"⟩], 0, false⟩).2.1 (by decide)

/-- C7: `flush` writes exactly when the dirty flag is set, then persists the
full current history and clears the flag; a flush right after construction
or right after a flush performs no write, and a flush after a mutating
`add_version` writes the full current history. -/
theorem flush_spec (vm : VersionManager) :
    ((flush vm).2.isSome ↔ vm.dirty = true)
    ∧ (vm.dirty = true → flush vm = ({ vm with dirty := false }, some (vm.versions, vm.path)))
    ∧ (vm.dirty = false → flush vm = (vm, none))
    ∧ (∀ p l, (flush (mkVersionManager p l)).2 = none)
    ∧ ((flush (flush vm).1).2 = none)
    ∧ (∀ ts t, add_version vm ts t ≠ vm →
        (flush (add_version vm ts t)).2
          = some ((add_version vm ts t).versions, (add_version vm ts t).path)) := by
  refine ⟨?_, fun h => ?_, fun h => ?_, fun p l => ?_, ?_, fun ts t hne => ?_⟩
  · cases hd : vm.dirty <;> simp [flush, hd]
  · rw [flush, if_neg (by rw [h]; exact fun hc => by cases hc)]
  · rw [flush, if_pos h]
  · simp [flush, mkVersionManager]
  · cases hd : vm.dirty <;> simp [flush, hd]
  · have hdirty : (add_version vm ts t).dirty = true := by
      by_cases hg : 0 ≤ vm.index ∧ (vm.versions[vm.index.toNat]?).map Revision.text = some t
      · exact absurd (by rw [add_version, if_pos hg]) hne
      · rw [add_version, if_neg hg]
    rw [flush, if_neg (by rw [hdirty]; exact fun hc => by cases hc)]

/-- C7 witness: flushing a dirty one-revision history writes that history and
clears the flag; flushing right after construction writes nothing. -/
theorem flush_spec_witness :
    flush ⟨"p", [⟨"1", "A"⟩], 0, true⟩ = (⟨"p", [⟨"1", "A"⟩], 0, false⟩, some ([⟨"1", "A"⟩], "p"))
    ∧ (flush (mkVersionManager "p" [])).2 = none := by
  refine ⟨?_, (flush_spec (mkVersionManager "p" [])).2.2.2.1 "p" []⟩
  exact (flush_spec ⟨"p", [⟨"1", "A"⟩], 0, true⟩).2.1 rfl

/-- C8: every reachable `VersionManager` state satisfies
`-1 ≤ index < len(versions)`, the cursor is `-1` only for an empty history,
and construction sets the cursor to the last index. -/
theorem version_manager_cursor_invariant (vm : VersionManager) (h : Reachable vm) :
    (-1 ≤ vm.index ∧ vm.index < (vm.versions.length : Int)
      ∧ (vm.index = -1 → vm.versions = []))
    ∧ ∀ p l, (mkVersionManager p l).index = (l.length : Int) - 1 := by
  refine ⟨?_, fun p l => mk_index_eq p l⟩
  induction h with
  | load p l =>
    refine ⟨?_, ?_, fun hc => ?_⟩
    · rw [mk_index_eq]
      omega
    · show (mkVersionManager p l).index < (l.length : Int)
      rw [mk_index_eq]
      omega
    · rw [mk_index_eq] at hc
      have hz : l.length = 0 := by omega
      show l = []
      exact List.length_eq_zero.1 hz
  | add vm ts t hr ih =>
    by_cases hg : 0 ≤ vm.index ∧ (vm.versions[vm.index.toNat]?).map Revision.text = some t
    · rw [add_version, if_pos hg]; exact ih
    · rw [add_version, if_neg hg]
      refine ⟨?_, ?_, fun hc => ?_⟩
      · show -1 ≤ ((vm.versions.take (vm.index + 1).toNat ++ [Revision.mk ts t]).length : Int) - 1
        rw [length_append_single]
        omega
      · show ((vm.versions.take (vm.index + 1).toNat ++ [Revision.mk ts t]).length : Int) - 1
          < ((vm.versions.take (vm.index + 1).toNat ++ [Revision.mk ts t]).length : Int)
        omega
      · have hc' : ((vm.versions.take (vm.index + 1).toNat
            ++ [Revision.mk ts t]).length : Int) - 1 = -1 := hc
        rw [length_append_single] at hc'
        exact absurd hc' (by omega)
  | stepBack vm hr ih =>
    obtain ⟨ih1, ih2, ih3⟩ := ih
    by_cases h0 : 0 < vm.index
    · rw [undo, if_pos h0]
      refine ⟨?_, ?_, fun hc => ?_⟩
      · show -1 ≤ vm.index - 1
        omega
      · show vm.index - 1 < (vm.versions.length : Int)
        omega
      · have hc' : vm.index - 1 = -1 := hc
        exact absurd hc' (by omega)
    · rw [undo, if_neg h0]; exact ⟨ih1, ih2, ih3⟩
  | stepForward vm hr ih =>
    obtain ⟨ih1, ih2, ih3⟩ := ih
    by_cases h0 : vm.index < (vm.versions.length : Int) - 1
    · rw [redo, if_pos h0]
      refine ⟨?_, ?_, fun hc => ?_⟩
      · show -1 ≤ vm.index + 1
        omega
      · show vm.index + 1 < (vm.versions.length : Int)
        omega
      · have hc' : vm.index + 1 = -1 := hc
        exact absurd hc' (by omega)
    · rw [redo, if_neg h0]; exact ⟨ih1, ih2, ih3⟩
  | persist vm hr ih =>
    cases hd : vm.dirty
    · rw [flush, if_pos (by rw [hd])]; exact ih
    · rw [flush, if_neg (by simp [hd])]; exact ih

/-- C8 witness: the invariant instantiated at a freshly loaded empty
history. -/
theorem version_manager_cursor_invariant_witness :
    -1 ≤ (mkVersionManager "p" []).index
    ∧ (mkVersionManager "p" []).index < ((mkVersionManager "p" []).versions.length : Int) :=
  ⟨(version_manager_cursor_invariant (mkVersionManager "p" []) (Reachable.load "p" [])).1.1,
   (version_manager_cursor_invariant (mkVersionManager "p" []) (Reachable.load "p" [])).1.2.1⟩

/-! ### Lemmas and theorems about the rate limiter and worker -/

/-- The computed interval is never negative. -/
theorem mkInterval_nonneg (r : ℚ) : 0 ≤ mkInterval r := by
  rw [mkInterval]
  split
  · positivity
  · exact le_refl 0

/-- One `wait` completes no earlier than `interval` after the previously
stored completion time. -/
theorem waitStep_ge (i last now : ℚ) :
    last + i ≤ (waitStep i last now).completion := by
  rw [waitStep]
  by_cases hd : 0 < last + i - now
  · rw [if_pos hd]
    dsimp only
    linarith
  · rw [if_neg hd]
    dsimp only
    push_neg at hd
    linarith

/-- Consecutive completions of serialized `wait` calls are at least the
interval apart. -/
theorem waitCompletions_chain (i last : ℚ) (nows : List ℚ) :
    List.Chain' (fun c1 c2 => c1 + i ≤ c2) (waitCompletions i last nows) := by
  induction nows generalizing last with
  | nil => simp [waitCompletions]
  | cons n rest ih =>
    have hstep : waitCompletions i last (n :: rest)
        = (waitStep i last n).completion
          :: waitCompletions i (waitStep i last n).completion rest := rfl
    rw [hstep, List.chain'_cons']
    refine ⟨?_, ih _⟩
    intro b hb
    cases rest with
    | nil => simp [waitCompletions] at hb
    | cons m r2 =>
      have hhead : (waitCompletions i (waitStep i last n).completion (m :: r2)).head?
          = some (waitStep i (waitStep i last n).completion m).completion := rfl
      rw [hhead] at hb
      have hb' : b = (waitStep i (waitStep i last n).completion m).completion := by
        simpa using hb.symm
      rw [hb']
      exact waitStep_ge i (waitStep i last n).completion m

/-- C2: when the rate is nonpositive the interval is `0` and `wait` never
sleeps (for monotone clock readings); when the rate is positive the
interval is `1/rate`; and across any serialized sequence of `wait` calls,
each completion is at least the interval after the previous completion. -/
theorem rate_limiter_spec (r : ℚ) :
    (r ≤ 0 → mkInterval r = 0
      ∧ ∀ last now : ℚ, last ≤ now →
          (waitStep (mkInterval r) last now).slept = false
          ∧ (waitStep (mkInterval r) last now).completion = now)
    ∧ (0 < r → mkInterval r = 1 / r)
    ∧ (∀ last now : ℚ, last + mkInterval r ≤ (waitStep (mkInterval r) last now).completion)
    ∧ (∀ (last : ℚ) (nows : List ℚ),
        List.Chain' (fun c1 c2 => c1 + mkInterval r ≤ c2)
          (waitCompletions (mkInterval r) last nows)) := by
  refine ⟨fun hr => ⟨?_, fun last now hln => ?_⟩, fun hr => ?_, fun last now => waitStep_ge _ last now, fun last nows => waitCompletions_chain _ last nows⟩
  · rw [mkInterval, if_neg (not_lt.2 hr)]
  · have hi : mkInterval r = 0 := by rw [mkInterval, if_neg (not_lt.2 hr)]
    rw [hi, waitStep, if_neg (by linarith)]
    exact ⟨rfl, rfl⟩
  · rw [mkInterval, if_pos hr]

/-- C2 witness: with rate `0` there is no interval and a later call does not
sleep; with rate `2` the next completion is at least `1/2` after the
previous one. -/
theorem rate_limiter_spec_witness :
    mkInterval 0 = 0
    ∧ (waitStep (mkInterval 0) 0 1).slept = false
    ∧ (0 : ℚ) + mkInterval 2 ≤ (waitStep (mkInterval 2) 0 0).completion := by
  have h := (rate_limiter_spec 0).1 (le_refl 0)
  exact ⟨h.1, (h.2 0 1 (by norm_num)).1, (rate_limiter_spec 2).2.2.1 0 0⟩

/-- C3: one execution of `Worker.run` delivers exactly one signal: `finished`
with the return value when neither the limiter wait nor the call raises,
`error` with the raised exception otherwise, and never both. -/
theorem worker_run_single_delivery {α ε : Type} (w : Option ε) (c : Except ε α) :
    (workerRun w c).length = 1
    ∧ (∀ e, w = some e → workerRun w c = [RunSignal.error e])
    ∧ (w = none → ∀ v, c = Except.ok v → workerRun w c = [RunSignal.finished v])
    ∧ (w = none → ∀ e, c = Except.error e → workerRun w c = [RunSignal.error e])
    ∧ ∀ (v : α) (e : ε),
        ¬(RunSignal.finished v ∈ workerRun w c ∧ RunSignal.error e ∈ workerRun w c) := by
  rcases w with _ | e0
  · rcases c with e1 | v1
    · refine ⟨rfl, ?_, ?_, ?_, ?_⟩
      · intro e' he'
        cases he'
      · intro _ v' hv
        cases hv
      · intro _ e' he
        cases he
        rfl
      · intro v' e' h
        rcases h with ⟨hf, _⟩
        simp [workerRun] at hf
    · refine ⟨rfl, ?_, ?_, ?_, ?_⟩
      · intro e' he'
        cases he'
      · intro _ v' hv
        cases hv
        rfl
      · intro _ e' he
        cases he
      · intro v' e' h
        rcases h with ⟨_, he⟩
        simp [workerRun] at he
  · refine ⟨rfl, ?_, ?_, ?_, ?_⟩
    · intro e' he'
      cases he'
      rfl
    · intro hn
      cases hn
    · intro hn
      cases hn
    · intro v' e' h
      rcases h with ⟨hf, _⟩
      simp [workerRun] at hf

/-- C3 witness: a successful call emits exactly `finished`, a raising call
emits exactly `error`, a raising limiter wait emits exactly `error`. -/
theorem worker_run_single_delivery_witness :
    workerRun (α := Nat) (ε := String) none (Except.ok 7) = [RunSignal.finished 7]
    ∧ workerRun (α := Nat) (ε := String) none (Except.error "boom")
        = [RunSignal.error "boom"]
    ∧ workerRun (α := Nat) (ε := String) (some "late") (Except.ok 7)
        = [RunSignal.error "late"] :=
  ⟨(worker_run_single_delivery none (Except.ok 7)).2.2.1 rfl 7 rfl,
   (worker_run_single_delivery none (Except.error "boom")).2.2.2.1 rfl "boom" rfl,
   (worker_run_single_delivery (some "late") (Except.ok 7)).2.1 "late" rfl⟩

/-! ### Lemmas and theorems about the batch scheduler -/

/-- Invariant of reachable scheduler states while a batch is running: at most
one worker in flight, an empty in-flight set only with an empty queue and
Idle, and never Idle while a worker is in flight. -/
def BatchInv {α : Type} (s : BatchState α) : Prop :=
  s.inFlight.length ≤ 1
  ∧ (s.inFlight = [] → s.queue = [] ∧ s.idle = true)
  ∧ (s.inFlight ≠ [] → s.idle = false)

/-- Unfolding `process_queue` on an empty queue. -/
theorem process_queue_nil {α : Type} (s : BatchState α) (h : s.queue = []) :
    process_queue s = { s with idle := true } := by
  unfold process_queue
  rw [h]

/-- Unfolding `process_queue` on a non-empty queue. -/
theorem process_queue_cons {α : Type} (s : BatchState α) (c : α) (rest : List α)
    (h : s.queue = c :: rest) :
    process_queue s = { s with queue := rest, inFlight := s.inFlight ++ [c] } := by
  unfold process_queue
  rw [h]

/-- Unfolding `deliver` when a worker is in flight. -/
theorem deliver_eq {α : Type} (o : Outcome) (s : BatchState α) (c : α) (rest : List α)
    (h : s.inFlight = c :: rest) :
    deliver o s = process_queue
      { queue := s.queue, inFlight := rest, idle := s.idle,
        handled := s.handled ++ [(c, o)] } := by
  unfold deliver
  rw [h]

/-- Unfolding `drain` on a state with nothing in flight. -/
theorem drain_nil_eq {α : Type} (oracle : α → Outcome) (s : BatchState α)
    (h : s.inFlight = []) : drain oracle s = [s] := by
  rw [drain, dif_pos h]

/-- Unfolding `drain` on a state with a worker in flight. -/
theorem drain_cons_eq {α : Type} (oracle : α → Outcome) (s : BatchState α) (c : α)
    (rest : List α) (h : s.inFlight = c :: rest) :
    drain oracle s = s :: drain oracle (deliver (oracle c) s) := by
  have hne : s.inFlight ≠ [] := by rw [h]; simp
  have hhead : ∀ (l : List α) (hl : l ≠ []), l = c :: rest → l.head hl = c := by
    intro l hl heq
    subst heq
    rfl
  rw [drain, dif_neg hne, hhead s.inFlight hne h]

/-- `getLast?` of a cons with non-empty tail. -/
theorem getLast?_cons_of_ne {β : Type} (a : β) (l : List β) (h : l ≠ []) :
    (a :: l).getLast? = l.getLast? := by
  cases l with
  | nil => exact absurd rfl h
  | cons b m => exact List.getLast?_cons_cons

/-- `drain` never returns an empty trace. -/
theorem drain_ne_nil {α : Type} (oracle : α → Outcome) (s : BatchState α) :
    drain oracle s ≠ [] := by
  rw [drain]
  split <;> simp

/-- Starting a non-empty batch establishes the invariant. -/
theorem batch_translate_inv {α : Type} (chapters : List α) (h : chapters ≠ []) :
    BatchInv (batch_translate chapters) := by
  cases chapters with
  | nil => exact absurd rfl h
  | cons c rest =>
    have hpq : batch_translate (c :: rest)
        = { queue := rest, inFlight := [c], idle := false, handled := [] } := by
      unfold batch_translate
      exact process_queue_cons _ c rest rfl
    rw [hpq]
    refine ⟨?_, ?_, ?_⟩
    · simp
    · intro hc
      simp at hc
    · intro _
      rfl

/-- Core drain lemma: from any state satisfying the invariant, every state in
the trace satisfies the invariant and the trace ends in the Idle state whose
handled log extends the current one by the in-flight worker and then the
whole queue, in FIFO order, with each chapter's own outcome. -/
theorem drain_spec {α : Type} (oracle : α → Outcome) :
    ∀ (n : ℕ) (s : BatchState α), s.queue.length + s.inFlight.length ≤ n → BatchInv s →
      (∀ t ∈ drain oracle s, BatchInv t)
      ∧ (drain oracle s).getLast? = some
          { queue := [], inFlight := [], idle := true,
            handled := s.handled ++ (s.inFlight ++ s.queue).map (fun c => (c, oracle c)) } := by
  intro n
  induction n with
  | zero =>
    intro s hn hs
    obtain ⟨q, f, idl, hd⟩ := s
    cases f with
    | cons c rest => simp at hn
    | nil =>
      obtain ⟨hq, hi⟩ := hs.2.1 rfl
      simp only at hq hi
      subst hq hi
      rw [drain_nil_eq oracle _ rfl]
      refine ⟨fun t ht => ?_, ?_⟩
      · rcases List.mem_singleton.1 ht with rfl
        exact hs
      · simp
  | succ n ih =>
    intro s hn hs
    obtain ⟨q, f, idl, hd⟩ := s
    cases f with
    | nil =>
      obtain ⟨hq, hi⟩ := hs.2.1 rfl
      simp only at hq hi
      subst hq hi
      rw [drain_nil_eq oracle _ rfl]
      refine ⟨fun t ht => ?_, ?_⟩
      · rcases List.mem_singleton.1 ht with rfl
        exact hs
      · simp
    | cons c rest =>
      have hrest : rest = [] := by
        have h1 := hs.1
        simp only at h1
        simpa using h1
      subst hrest
      have hidl : idl = false := hs.2.2 (by simp)
      subst hidl
      rw [drain_cons_eq oracle _ c [] rfl]
      have hdel : deliver (oracle c) (BatchState.mk q [c] false hd)
          = process_queue
            { queue := q, inFlight := [], idle := false,
              handled := hd ++ [(c, oracle c)] } :=
        deliver_eq (oracle c) _ c [] rfl
      cases q with
      | nil =>
        have hs1 : deliver (oracle c) (BatchState.mk [] [c] false hd)
            = { queue := [], inFlight := [], idle := true,
                handled := hd ++ [(c, oracle c)] } := by
          rw [hdel, process_queue_nil _ rfl]
        rw [hs1]
        have hinv1 : BatchInv (α := α)
            { queue := [], inFlight := [], idle := true,
              handled := hd ++ [(c, oracle c)] } :=
          ⟨by simp, fun _ => ⟨rfl, rfl⟩, fun hc => absurd rfl hc⟩
        have hrec := ih
          { queue := [], inFlight := [], idle := true,
            handled := hd ++ [(c, oracle c)] } (by simp) hinv1
        refine ⟨fun t ht => ?_, ?_⟩
        · rcases List.mem_cons.1 ht with rfl | ht2
          · exact hs
          · exact hrec.1 t ht2
        · have hne := drain_ne_nil oracle
            ({ queue := [], inFlight := [], idle := true,
               handled := hd ++ [(c, oracle c)] } : BatchState α)
          rw [getLast?_cons_of_ne _ _ hne, hrec.2]
          simp
      | cons q1 qs =>
        have hs1 : deliver (oracle c) (BatchState.mk (q1 :: qs) [c] false hd)
            = { queue := qs, inFlight := [q1], idle := false,
                handled := hd ++ [(c, oracle c)] } := by
          rw [hdel, process_queue_cons _ q1 qs rfl]
          rfl
        rw [hs1]
        have hinv1 : BatchInv (α := α)
            { queue := qs, inFlight := [q1], idle := false,
              handled := hd ++ [(c, oracle c)] } := by
          refine ⟨?_, ?_, ?_⟩
          · simp
          · intro hc
            simp at hc
          · intro _
            rfl
        have hmeas : qs.length + 1 ≤ n := by
          simp only at hn
          simp at hn
          omega
        have hrec := ih
          { queue := qs, inFlight := [q1], idle := false,
            handled := hd ++ [(c, oracle c)] } (by simpa using hmeas) hinv1
        refine ⟨fun t ht => ?_, ?_⟩
        · rcases List.mem_cons.1 ht with rfl | ht2
          · exact hs
          · exact hrec.1 t ht2
        · have hne := drain_ne_nil oracle
            ({ queue := qs, inFlight := [q1], idle := false,
               handled := hd ++ [(c, oracle c)] } : BatchState α)
          rw [getLast?_cons_of_ne _ _ hne, hrec.2]
          simp

/-- C1: for a non-empty enqueued chapter list, the batch scheduler keeps at
most one worker in flight at every observed state, is Idle (translate
buttons re-enabled) exactly when nothing is queued or in flight, and the
trace ends Idle with every chapter handled in strict FIFO order with its own
outcome — failures included, so draining continues past failed items. -/
theorem batch_scheduler_spec {α : Type} (chapters : List α) (oracle : α → Outcome)
    (h : chapters ≠ []) :
    (∀ t ∈ drain oracle (batch_translate chapters), t.inFlight.length ≤ 1)
    ∧ (∀ t ∈ drain oracle (batch_translate chapters),
        (t.idle = true ↔ (t.inFlight = [] ∧ t.queue = [])))
    ∧ (drain oracle (batch_translate chapters)).getLast? = some
        { queue := [], inFlight := [], idle := true,
          handled := chapters.map (fun c => (c, oracle c)) } := by
  have hinv := batch_translate_inv chapters h
  have hd := drain_spec oracle
    ((batch_translate chapters).queue.length + (batch_translate chapters).inFlight.length)
    (batch_translate chapters) (le_refl _) hinv
  refine ⟨fun t ht => (hd.1 t ht).1, fun t ht => ?_, ?_⟩
  · have hbt := hd.1 t ht
    constructor
    · intro hidle
      by_cases hf : t.inFlight = []
      · exact ⟨hf, (hbt.2.1 hf).1⟩
      · exfalso
        have hfalse := hbt.2.2 hf
        rw [hidle] at hfalse
        cases hfalse
    · rintro ⟨hf, _⟩
      exact (hbt.2.1 hf).2
  · rw [hd.2]
    cases chapters with
    | nil => exact absurd rfl h
    | cons c rest =>
      have hbt : batch_translate (c :: rest)
          = { queue := rest, inFlight := [c], idle := false, handled := [] } := by
        unfold batch_translate
        exact process_queue_cons _ c rest rfl
      rw [hbt]
      simp

/-- C1 witness: a two-chapter batch in which the second chapter fails ends
Idle with both chapters handled in order. -/
theorem batch_scheduler_spec_witness :
    (drain (fun c => if c = 0 then Outcome.success "ok" else Outcome.failure "err")
        (batch_translate [0, 1])).getLast?
      = some { queue := [], inFlight := [], idle := true,
               handled := [(0, Outcome.success "ok"), (1, Outcome.failure "err")] } := by
  have h := (batch_scheduler_spec [0, 1]
      (fun c => if c = 0 then Outcome.success "ok" else Outcome.failure "err")
      (by simp)).2.2
  rw [h]
  rfl

/-! ### Lemmas about the embedded `SequenceMatcher` -/

/-- Membership in `b2j` means an in-range position holding the element. -/
theorem b2j_mem {b : List Char} {x : Char} {j : Nat} (h : j ∈ b2j b x) :
    j < b.length ∧ b[j]? = some x := by
  rw [b2j] at h
  split at h
  · cases h
  · rcases List.mem_filter.1 h with ⟨hr, hx⟩
    exact ⟨List.mem_range.1 hr, by simpa using hx⟩

/-- `b2j` position lists are strictly ascending. -/
theorem b2j_sorted (b : List Char) (x : Char) : List.Pairwise (· < ·) (b2j b x) := by
  rw [b2j]
  split
  · exact List.Pairwise.nil
  · exact (List.pairwise_lt_range _).filter _

/-- Every in-range position of a non-popular element is listed in `b2j` for
its own element. -/
theorem b2j_self {b : List Char} {i : Nat} (hi : i < b.length)
    (hnp : isPopular b (b.getD i default) = false) :
    i ∈ b2j b (b.getD i default) := by
  rw [b2j, if_neg (by rw [hnp]; simp)]
  refine List.mem_filter.2 ⟨List.mem_range.2 hi, ?_⟩
  have hsome : b[i]? = some (b.getD i default) := by
    rw [List.getElem?_eq_getElem hi, List.getD_eq_getElem b default hi]
  exact decide_eq_true hsome

/-- A true `charEq` yields the common element. -/
theorem charEq_eq {a b : List Char} {x y : Nat} (h : charEq a x b y = true) :
    ∃ ch, a[x]? = some ch ∧ b[y]? = some ch := by
  rw [charEq] at h
  cases hax : a[x]? with
  | none => rw [hax] at h; simp at h
  | some ca =>
    cases hby : b[y]? with
    | none => rw [hax, hby] at h; simp at h
    | some cb =>
      rw [hax, hby] at h
      simp at h
      exact ⟨ca, rfl, by rw [h]⟩

/-- The chain property of the dynamic-programming value
`k = j2len.get(j-1, 0) + 1` computed when `a[i]` matches `b[j]`. -/
theorem chain_step {a b : List Char} {alo blo bhi i j : Nat} {f : Nat → Nat}
    (hf : J2Spec a b alo blo bhi (i - 1) f) (hf0 : i = 0 → ∀ j', f j' = 0)
    (halo : alo ≤ i)
    (hch : ∃ ch, a[i]? = some ch ∧ b[j]? = some ch)
    (hblo : blo ≤ j) (hbhi : j < bhi) :
    ((if j = 0 then 0 else f (j - 1)) + 1) ≤ i + 1 - alo
    ∧ ((if j = 0 then 0 else f (j - 1)) + 1) ≤ j + 1 - blo
    ∧ ∀ t, t < (if j = 0 then 0 else f (j - 1)) + 1 →
        ∃ ch, a[i - t]? = some ch ∧ b[j - t]? = some ch := by
  by_cases hj : j = 0
  · have hK : (if j = 0 then 0 else f (j - 1)) = 0 := if_pos hj
    rw [hK]
    refine ⟨by omega, by omega, ?_⟩
    intro t ht
    have ht0 : t = 0 := by omega
    subst ht0
    simpa using hch
  · rw [if_neg hj]
    by_cases hfz : f (j - 1) = 0
    · rw [hfz]
      refine ⟨by omega, by omega, ?_⟩
      intro t ht
      have ht0 : t = 0 := by omega
      subst ht0
      simpa using hch
    · have hpos : 0 < f (j - 1) := Nat.pos_of_ne_zero hfz
      obtain ⟨hb1, hb2, hb3, hb4, hchain⟩ := hf (j - 1) hpos
      have hi1 : 1 ≤ i := by
        by_contra hc
        have hiz : i = 0 := by omega
        exact hfz (hf0 hiz (j - 1))
      refine ⟨by omega, by omega, ?_⟩
      intro t ht
      rcases Nat.eq_zero_or_pos t with ht0 | htp
      · subst ht0
        simpa using hch
      · obtain ⟨ch, hA, hB⟩ := hchain (t - 1) (by omega)
        refine ⟨ch, ?_, ?_⟩
        · rw [show i - t = i - 1 - (t - 1) from by omega]
          exact hA
        · rw [show j - t = j - 1 - (t - 1) from by omega]
          exact hB

/-- Soundness of the inner loop of `find_longest_match`: it preserves the
row-table and best-match specifications. -/
theorem flmInner_sound (a b : List Char) (alo ahi blo bhi i : Nat)
    (halo : alo ≤ i) (hia : i < ahi) :
    ∀ (js : List Nat), (∀ j ∈ js, ∃ ch, a[i]? = some ch ∧ b[j]? = some ch) →
    ∀ (f : Nat → Nat), J2Spec a b alo blo bhi (i - 1) f → (i = 0 → ∀ j', f j' = 0) →
    ∀ (g : Nat → Nat), J2Spec a b alo blo bhi i g →
    ∀ (best : Best), BestSpec a b alo ahi blo bhi best →
      J2Spec a b alo blo bhi i (flmInner i blo bhi f js g best).1
      ∧ BestSpec a b alo ahi blo bhi (flmInner i blo bhi f js g best).2 := by
  intro js
  induction js with
  | nil =>
    intro _ f _ _ g hg best hbest
    exact ⟨hg, hbest⟩
  | cons j js ih =>
    intro hjs f hf hf0 g hg best hbest
    by_cases h1 : j < blo
    · show J2Spec a b alo blo bhi i (flmInner i blo bhi f (j :: js) g best).1 ∧ _
      rw [flmInner, if_pos h1]
      exact ih (fun j' hj' => hjs j' (List.mem_cons_of_mem j hj')) f hf hf0 g hg best hbest
    · by_cases h2 : bhi ≤ j
      · rw [flmInner, if_neg h1, if_pos h2]
        exact ⟨hg, hbest⟩
      · rw [flmInner, if_neg h1, if_neg h2]
        have hblo : blo ≤ j := by omega
        have hbhi : j < bhi := by omega
        have hchain := chain_step hf hf0 halo (hjs j (List.mem_cons_self j js)) hblo hbhi
        set k := (if j = 0 then 0 else f (j - 1)) + 1 with hk
        have hg' : J2Spec a b alo blo bhi i (fun j' => if j' = j then k else g j') := by
          intro j0 hj0
          dsimp only at hj0 ⊢
          by_cases hj0j : j0 = j
          · subst hj0j
            rw [if_pos rfl]
            refine ⟨hblo, hbhi, hchain.1, hchain.2.1, ?_⟩
            intro t ht
            exact hchain.2.2 t ht
          · rw [if_neg hj0j] at hj0 ⊢
            exact hg j0 hj0
        have hbest' : BestSpec a b alo ahi blo bhi
            (if best.bestsize < k then Best.mk (i + 1 - k) (j + 1 - k) k else best) := by
          by_cases hup : best.bestsize < k
          · rw [if_pos hup]
            have hk1 : k ≤ i + 1 - alo := hchain.1
            have hk2 : k ≤ j + 1 - blo := hchain.2.1
            show alo ≤ i + 1 - k ∧ blo ≤ j + 1 - k
              ∧ i + 1 - k + k ≤ ahi ∧ j + 1 - k + k ≤ bhi
              ∧ ∀ t, t < k → ∃ ch, a[i + 1 - k + t]? = some ch ∧ b[j + 1 - k + t]? = some ch
            refine ⟨by omega, by omega, by omega, by omega, ?_⟩
            intro t ht
            obtain ⟨ch, hA, hB⟩ := hchain.2.2 (k - 1 - t) (by omega)
            refine ⟨ch, ?_, ?_⟩
            · rw [show i + 1 - k + t = i - (k - 1 - t) from by omega]
              exact hA
            · rw [show j + 1 - k + t = j - (k - 1 - t) from by omega]
              exact hB
          · rw [if_neg hup]
            exact hbest
        exact ih (fun j' hj' => hjs j' (List.mem_cons_of_mem j hj')) f hf hf0 _ hg' _ hbest'

/-- Soundness of the row loop of `find_longest_match`. -/
theorem flmRows_sound (a b : List Char) (alo ahi blo bhi : Nat) (hahi : ahi ≤ a.length) :
    ∀ (len istart : Nat), alo ≤ istart → istart + len ≤ ahi →
      ∀ (f : Nat → Nat), J2Spec a b alo blo bhi (istart - 1) f →
        (istart = 0 → ∀ j', f j' = 0) →
      ∀ (best : Best), BestSpec a b alo ahi blo bhi best →
      BestSpec a b alo ahi blo bhi
        (flmRows a b blo bhi (List.range' istart len) f best) := by
  intro len
  induction len with
  | zero =>
    intro istart _ _ f _ _ best hbest
    simpa [flmRows] using hbest
  | succ n ih =>
    intro istart hs hle f hf hf0 best hbest
    rw [List.range'_succ]
    have hia : istart < ahi := by omega
    have hai : istart < a.length := by omega
    have hjs : ∀ j ∈ b2j b (a.getD istart default),
        ∃ ch, a[istart]? = some ch ∧ b[j]? = some ch := by
      intro j hj
      obtain ⟨hjb, hjx⟩ := b2j_mem hj
      refine ⟨a.getD istart default, ?_, hjx⟩
      rw [List.getElem?_eq_getElem hai, List.getD_eq_getElem a default hai]
    have hstep := flmInner_sound a b alo ahi blo bhi istart hs hia
      (b2j b (a.getD istart default)) hjs f hf hf0 (fun _ => 0)
      (fun j hj => absurd hj (lt_irrefl 0)) best hbest
    show BestSpec a b alo ahi blo bhi (flmRows a b blo bhi _ _ _)
    rw [flmRows]
    refine ih (istart + 1) (by omega) (by omega) _ ?_ (by omega) _ hstep.2
    have := hstep.1
    simpa using this

/-- The left extension loop preserves the best-match specification. -/
theorem extendLeft_sound (a b : List Char) (alo ahi blo bhi : Nat) :
    ∀ (n : Nat) (best : Best),
      BestSpec a b alo ahi blo bhi best →
      BestSpec a b alo ahi blo bhi (extendLeftGo a b alo blo n best) := by
  intro n
  induction n with
  | zero =>
    intro best hspec
    exact hspec
  | succ n ih =>
    intro best hspec
    by_cases hc : alo < best.besti ∧ blo < best.bestj
        ∧ charEq a (best.besti - 1) b (best.bestj - 1) = true
    · rw [extendLeftGo, if_pos hc]
      obtain ⟨hs1, hs2, hs3, hs4, hs5⟩ := hspec
      obtain ⟨ch0, hA0, hB0⟩ := charEq_eq hc.2.2
      refine ih _ ?_
      show alo ≤ best.besti - 1 ∧ blo ≤ best.bestj - 1
        ∧ best.besti - 1 + (best.bestsize + 1) ≤ ahi
        ∧ best.bestj - 1 + (best.bestsize + 1) ≤ bhi
        ∧ ∀ t, t < best.bestsize + 1 →
            ∃ ch, a[best.besti - 1 + t]? = some ch ∧ b[best.bestj - 1 + t]? = some ch
      refine ⟨by omega, by omega, by omega, by omega, ?_⟩
      intro t ht
      rcases Nat.eq_zero_or_pos t with ht0 | htp
      · subst ht0
        exact ⟨ch0, by simpa using hA0, by simpa using hB0⟩
      · obtain ⟨ch, hA, hB⟩ := hs5 (t - 1) (by omega)
        refine ⟨ch, ?_, ?_⟩
        · rw [show best.besti - 1 + t = best.besti + (t - 1) from by omega]
          exact hA
        · rw [show best.bestj - 1 + t = best.bestj + (t - 1) from by omega]
          exact hB
    · rw [extendLeftGo, if_neg hc]
      exact hspec

/-- The right extension loop preserves the best-match specification. -/
theorem extendRight_sound (a b : List Char) (alo ahi blo bhi : Nat) :
    ∀ (n : Nat) (best : Best),
      BestSpec a b alo ahi blo bhi best →
      BestSpec a b alo ahi blo bhi (extendRightGo a b ahi bhi n best) := by
  intro n
  induction n with
  | zero =>
    intro best hspec
    exact hspec
  | succ n ih =>
    intro best hspec
    by_cases hc : best.besti + best.bestsize < ahi ∧ best.bestj + best.bestsize < bhi
        ∧ charEq a (best.besti + best.bestsize) b (best.bestj + best.bestsize) = true
    · rw [extendRightGo, if_pos hc]
      obtain ⟨hs1, hs2, hs3, hs4, hs5⟩ := hspec
      obtain ⟨ch0, hA0, hB0⟩ := charEq_eq hc.2.2
      refine ih _ ?_
      show alo ≤ best.besti ∧ blo ≤ best.bestj
        ∧ best.besti + (best.bestsize + 1) ≤ ahi
        ∧ best.bestj + (best.bestsize + 1) ≤ bhi
        ∧ ∀ t, t < best.bestsize + 1 →
            ∃ ch, a[best.besti + t]? = some ch ∧ b[best.bestj + t]? = some ch
      refine ⟨hs1, hs2, by omega, by omega, ?_⟩
      intro t ht
      by_cases htt : t = best.bestsize
      · subst htt
        exact ⟨ch0, hA0, hB0⟩
      · exact hs5 t (by omega)
    · rw [extendRightGo, if_neg hc]
      exact hspec

/-- `find_longest_match` returns a valid in-window match. -/
theorem flm_sound (a b : List Char) (alo ahi blo bhi : Nat)
    (h1 : alo ≤ ahi) (h2 : ahi ≤ a.length) (h3 : blo ≤ bhi) :
    BestSpec a b alo ahi blo bhi (find_longest_match a b alo ahi blo bhi) := by
  rw [find_longest_match, extendRight, extendLeft]
  apply extendRight_sound a b alo ahi blo bhi
  apply extendLeft_sound a b alo ahi blo bhi
  apply flmRows_sound a b alo ahi blo bhi h2 (ahi - alo) alo (le_refl _) (by omega)
  · intro j hj
    exact absurd hj (lt_irrefl 0)
  · intro _ j'
    rfl
  · refine ⟨le_refl _, le_refl _, ?_, ?_, ?_⟩
    · show alo + 0 ≤ ahi
      omega
    · show blo + 0 ≤ bhi
      omega
    · intro t ht
      exact absurd ht (Nat.not_lt_zero t)

/-- Widening the window preserves block validity. -/
theorem BlockValid.mono {a b : List Char} {alo ahi blo bhi alo' ahi' blo' bhi' : Nat}
    {blk : Block} (h : BlockValid a b alo' ahi' blo' bhi' blk)
    (h1 : alo ≤ alo') (h2 : ahi' ≤ ahi) (h3 : blo ≤ blo') (h4 : bhi' ≤ bhi) :
    BlockValid a b alo ahi blo bhi blk := by
  obtain ⟨v1, v2, v3, v4, v5, v6⟩ := h
  exact ⟨by omega, by omega, by omega, by omega, v5, v6⟩

/-- Soundness of the recursive matching-blocks pass: every returned block is
a valid in-window match and the list is sorted with non-overlapping,
monotone coordinates. -/
theorem matching_blocks_fuel_sound (a b : List Char) :
    ∀ (fuel alo ahi blo bhi : Nat), alo ≤ ahi → ahi ≤ a.length → blo ≤ bhi →
      (∀ blk ∈ matching_blocks_fuel a b fuel alo ahi blo bhi,
        BlockValid a b alo ahi blo bhi blk)
      ∧ List.Pairwise BlockLe (matching_blocks_fuel a b fuel alo ahi blo bhi) := by
  intro fuel
  induction fuel with
  | zero =>
    intro alo ahi blo bhi _ _ _
    constructor
    · intro blk hblk
      cases hblk
    · exact List.Pairwise.nil
  | succ n ih =>
    intro alo ahi blo bhi hab hal hbb
    have hm := flm_sound a b alo ahi blo bhi hab hal hbb
    set m := find_longest_match a b alo ahi blo bhi with hmdef
    obtain ⟨hm1, hm2, hm3, hm4, hm5⟩ := hm
    by_cases hz : m.bestsize = 0
    · rw [show matching_blocks_fuel a b (n + 1) alo ahi blo bhi = [] from by
        rw [matching_blocks_fuel, ← hmdef, if_pos hz]]
      exact ⟨fun blk hblk => absurd hblk (by simp), List.Pairwise.nil⟩
    · have hunfold : matching_blocks_fuel a b (n + 1) alo ahi blo bhi
          = (if alo < m.besti ∧ blo < m.bestj then
              matching_blocks_fuel a b n alo m.besti blo m.bestj
            else [])
            ++ [Block.mk m.besti m.bestj m.bestsize]
            ++ (if m.besti + m.bestsize < ahi ∧ m.bestj + m.bestsize < bhi then
              matching_blocks_fuel a b n (m.besti + m.bestsize) ahi
                (m.bestj + m.bestsize) bhi
            else []) := by
        rw [matching_blocks_fuel, ← hmdef, if_neg hz]
      rw [hunfold]
      have hmid : BlockValid a b alo ahi blo bhi (Block.mk m.besti m.bestj m.bestsize) := by
        show alo ≤ m.besti ∧ blo ≤ m.bestj ∧ m.besti + m.bestsize ≤ ahi
          ∧ m.bestj + m.bestsize ≤ bhi ∧ 1 ≤ m.bestsize
          ∧ ∀ t, t < m.bestsize →
              ∃ ch, a[m.besti + t]? = some ch ∧ b[m.bestj + t]? = some ch
        exact ⟨hm1, hm2, hm3, hm4, by omega, hm5⟩
      have hleft : (∀ blk ∈ (if alo < m.besti ∧ blo < m.bestj then
            matching_blocks_fuel a b n alo m.besti blo m.bestj else []),
          BlockValid a b alo m.besti blo m.bestj blk)
          ∧ List.Pairwise BlockLe (if alo < m.besti ∧ blo < m.bestj then
              matching_blocks_fuel a b n alo m.besti blo m.bestj else []) := by
        by_cases hL : alo < m.besti ∧ blo < m.bestj
        · rw [if_pos hL]
          exact ih alo m.besti blo m.bestj (by omega) (by omega) (by omega)
        · rw [if_neg hL]
          exact ⟨fun blk hblk => absurd hblk (by simp), List.Pairwise.nil⟩
      have hright : (∀ blk ∈ (if m.besti + m.bestsize < ahi ∧ m.bestj + m.bestsize < bhi then
            matching_blocks_fuel a b n (m.besti + m.bestsize) ahi
              (m.bestj + m.bestsize) bhi else []),
          BlockValid a b (m.besti + m.bestsize) ahi (m.bestj + m.bestsize) bhi blk)
          ∧ List.Pairwise BlockLe
            (if m.besti + m.bestsize < ahi ∧ m.bestj + m.bestsize < bhi then
              matching_blocks_fuel a b n (m.besti + m.bestsize) ahi
                (m.bestj + m.bestsize) bhi else []) := by
        by_cases hR : m.besti + m.bestsize < ahi ∧ m.bestj + m.bestsize < bhi
        · rw [if_pos hR]
          exact ih (m.besti + m.bestsize) ahi (m.bestj + m.bestsize) bhi
            (by omega) hal (by omega)
        · rw [if_neg hR]
          exact ⟨fun blk hblk => absurd hblk (by simp), List.Pairwise.nil⟩
      constructor
      · intro blk hblk
        rcases List.mem_append.1 hblk with hblk1 | hblkR
        · rcases List.mem_append.1 hblk1 with hblkL | hblkM
          · exact (hleft.1 blk hblkL).mono (le_refl _) (by omega) (le_refl _) (by omega)
          · rcases List.mem_singleton.1 hblkM with rfl
            exact hmid
        · exact (hright.1 blk hblkR).mono (by omega) (le_refl _) (by omega) (le_refl _)
      · rw [List.pairwise_append]
        refine ⟨?_, hright.2, ?_⟩
        · rw [List.pairwise_append]
          refine ⟨hleft.2, List.pairwise_singleton _ _, ?_⟩
          intro x hx y hy
          rcases List.mem_singleton.1 hy with rfl
          obtain ⟨v1, v2, v3, v4, v5, v6⟩ := hleft.1 x hx
          refine ⟨?_, ?_⟩
          · show x.ai + x.size ≤ m.besti
            omega
          · show x.bj + x.size ≤ m.bestj
            omega
        · intro x hx y hy
          obtain ⟨w1, w2, w3, w4, w5, w6⟩ := hright.1 y hy
          rcases List.mem_append.1 hx with hxL | hxM
          · obtain ⟨v1, v2, v3, v4, v5, v6⟩ := hleft.1 x hxL
            exact ⟨by omega, by omega⟩
          · rcases List.mem_singleton.1 hxM with rfl
            refine ⟨?_, ?_⟩
            · show m.besti + m.bestsize ≤ y.ai
              omega
            · show m.bestj + m.bestsize ≤ y.bj
              omega

/-- Soundness of the adjacent-block merging pass of `get_matching_blocks`:
fused blocks still match element-wise, stay in range, start no earlier than
the pending block, and remain sorted and non-overlapping. -/
theorem mergeAdj_sound (a b : List Char) :
    ∀ (bl : List Block) (cur : Block),
      (∀ t, t < cur.size → ∃ ch, a[cur.ai + t]? = some ch ∧ b[cur.bj + t]? = some ch) →
      cur.ai + cur.size ≤ a.length → cur.bj + cur.size ≤ b.length →
      (∀ blk ∈ bl, BlockValid a b 0 a.length 0 b.length blk) →
      List.Pairwise BlockLe bl →
      (∀ blk ∈ bl, cur.ai + cur.size ≤ blk.ai ∧ cur.bj + cur.size ≤ blk.bj) →
      (∀ blk ∈ mergeAdj cur bl,
          (∀ t, t < blk.size → ∃ ch, a[blk.ai + t]? = some ch ∧ b[blk.bj + t]? = some ch)
          ∧ blk.ai + blk.size ≤ a.length ∧ blk.bj + blk.size ≤ b.length
          ∧ cur.ai ≤ blk.ai ∧ cur.bj ≤ blk.bj)
      ∧ List.Pairwise BlockLe (mergeAdj cur bl) := by
  intro bl
  induction bl with
  | nil =>
    intro cur hmatch hba hbb _ _ _
    rw [mergeAdj]
    by_cases hz : cur.size = 0
    · rw [if_pos hz]
      exact ⟨fun blk hblk => absurd hblk (by simp), List.Pairwise.nil⟩
    · rw [if_neg hz]
      refine ⟨?_, List.pairwise_singleton _ _⟩
      intro blk hblk
      rcases List.mem_singleton.1 hblk with rfl
      exact ⟨hmatch, hba, hbb, le_refl _, le_refl _⟩
  | cons blk rest ih =>
    intro cur hmatch hba hbb hvalid hpw hhead
    obtain ⟨v1, v2, v3, v4, v5, v6⟩ := hvalid blk (List.mem_cons_self blk rest)
    have hpwrest : List.Pairwise BlockLe rest := (List.pairwise_cons.1 hpw).2
    have hblkle : ∀ x ∈ rest, BlockLe blk x := (List.pairwise_cons.1 hpw).1
    have hvrest : ∀ x ∈ rest, BlockValid a b 0 a.length 0 b.length x :=
      fun x hx => hvalid x (List.mem_cons_of_mem blk hx)
    rw [mergeAdj]
    by_cases hadj : cur.ai + cur.size = blk.ai ∧ cur.bj + cur.size = blk.bj
    · rw [if_pos hadj]
      have hmatch' : ∀ t, t < cur.size + blk.size →
          ∃ ch, a[cur.ai + t]? = some ch ∧ b[cur.bj + t]? = some ch := by
        intro t ht
        by_cases htc : t < cur.size
        · exact hmatch t htc
        · obtain ⟨ch, hA, hB⟩ := v6 (t - cur.size) (by omega)
          refine ⟨ch, ?_, ?_⟩
          · rw [show cur.ai + t = blk.ai + (t - cur.size) from by omega]
            exact hA
          · rw [show cur.bj + t = blk.bj + (t - cur.size) from by omega]
            exact hB
      have hrec := ih (Block.mk cur.ai cur.bj (cur.size + blk.size))
        hmatch' (by show cur.ai + (cur.size + blk.size) ≤ a.length; omega)
        (by show cur.bj + (cur.size + blk.size) ≤ b.length; omega)
        hvrest hpwrest
        (by
          intro x hx
          obtain ⟨hle1, hle2⟩ := hblkle x hx
          constructor
          · show cur.ai + (cur.size + blk.size) ≤ x.ai
            omega
          · show cur.bj + (cur.size + blk.size) ≤ x.bj
            omega)
      refine ⟨?_, hrec.2⟩
      intro x hx
      obtain ⟨m1, m2, m3, m4, m5⟩ := hrec.1 x hx
      exact ⟨m1, m2, m3, m4, m5⟩
    · rw [if_neg hadj]
      have hrec := ih blk v6 v3 v4 hvrest hpwrest
        (fun x hx => (hblkle x hx))
      have hcur : ∀ x ∈ mergeAdj blk rest, cur.ai + cur.size ≤ x.ai
          ∧ cur.bj + cur.size ≤ x.bj := by
        intro x hx
        obtain ⟨_, _, _, m4, m5⟩ := hrec.1 x hx
        obtain ⟨h1, h2⟩ := hhead blk (List.mem_cons_self blk rest)
        exact ⟨by omega, by omega⟩
      constructor
      · intro x hx
        rcases List.mem_append.1 hx with hx1 | hx2
        · have hx1' : x = cur := by
            by_cases hz : cur.size = 0
            · rw [if_pos hz] at hx1
              cases hx1
            · rw [if_neg hz] at hx1
              exact List.mem_singleton.1 hx1
          subst hx1'
          exact ⟨hmatch, hba, hbb, le_refl _, le_refl _⟩
        · obtain ⟨m1, m2, m3, m4, m5⟩ := hrec.1 x hx2
          obtain ⟨h1, h2⟩ := hcur x hx2
          exact ⟨m1, m2, m3, by omega, by omega⟩
      · rw [List.pairwise_append]
        refine ⟨?_, hrec.2, ?_⟩
        · by_cases hz : cur.size = 0
          · rw [if_pos hz]
            exact List.Pairwise.nil
          · rw [if_neg hz]
            exact List.pairwise_singleton _ _
        · intro x hx y hy
          have hx' : x = cur := by
            by_cases hz : cur.size = 0
            · rw [if_pos hz] at hx
              cases hx
            · rw [if_neg hz] at hx
              exact List.mem_singleton.1 hx
          subst hx'
          exact hcur y hy

/-- Soundness of `get_matching_blocks`: every block (terminator included)
stays in range and matches element-wise, the list is sorted and
non-overlapping, and it ends with the `(la, lb, 0)` terminator. -/
theorem gmb_sound (a b : List Char) :
    (∀ blk ∈ get_matching_blocks a b,
        blk.ai + blk.size ≤ a.length ∧ blk.bj + blk.size ≤ b.length
        ∧ ∀ t, t < blk.size → ∃ ch, a[blk.ai + t]? = some ch ∧ b[blk.bj + t]? = some ch)
    ∧ List.Pairwise BlockLe (get_matching_blocks a b)
    ∧ (get_matching_blocks a b).getLast? = some (Block.mk a.length b.length 0) := by
  have hraw := matching_blocks_fuel_sound a b (a.length + b.length) 0 a.length 0 b.length
    (Nat.zero_le _) (le_refl _) (Nat.zero_le _)
  have hmerge := mergeAdj_sound a b (matching_blocks a b) (Block.mk 0 0 0)
    (fun t ht => absurd ht (Nat.not_lt_zero t))
    (by show 0 + 0 ≤ a.length; omega) (by show 0 + 0 ≤ b.length; omega)
    (fun blk hblk => hraw.1 blk hblk) hraw.2
    (by
      intro blk hblk
      obtain ⟨w1, w2, w3, w4, w5, w6⟩ := hraw.1 blk hblk
      constructor
      · show 0 + 0 ≤ blk.ai
        omega
      · show 0 + 0 ≤ blk.bj
        omega)
  rw [get_matching_blocks]
  refine ⟨?_, ?_, ?_⟩
  · intro blk hblk
    rcases List.mem_append.1 hblk with hm | ht
    · obtain ⟨m1, m2, m3, _, _⟩ := hmerge.1 blk hm
      exact ⟨m2, m3, m1⟩
    · rcases List.mem_singleton.1 ht with rfl
      refine ⟨?_, ?_, ?_⟩
      · show a.length + 0 ≤ a.length
        omega
      · show b.length + 0 ≤ b.length
        omega
      · intro t ht'
        exact absurd ht' (Nat.not_lt_zero t)
  · rw [List.pairwise_append]
    refine ⟨hmerge.2, List.pairwise_singleton _ _, ?_⟩
    intro x hx y hy
    rcases List.mem_singleton.1 hy with rfl
    obtain ⟨_, m2, m3, _, _⟩ := hmerge.1 x hx
    constructor
    · show x.ai + x.size ≤ a.length
      omega
    · show x.bj + x.size ≤ b.length
      omega
  · exact List.getLast?_concat _

/-- Any emitted gap opcode is non-`equal` and spans `(j, bj)` on the `b`
side. -/
theorem gapOp_mem {i j ai bj : Nat} {op : Opcode} (h : op ∈ gapOp i j ai bj) :
    op.tag ≠ DiffTag.equal ∧ op.b1 = j ∧ op.b2 = bj := by
  rw [gapOp] at h
  split at h
  · rcases List.mem_singleton.1 h with rfl
    exact ⟨by simp, rfl, rfl⟩
  · split at h
    · rcases List.mem_singleton.1 h with rfl
      exact ⟨by simp, rfl, rfl⟩
    · split at h
      · rcases List.mem_singleton.1 h with rfl
        exact ⟨by simp, rfl, rfl⟩
      · cases h

/-- When the `b` cursor strictly lags the next block, some gap opcode covers
every position in between. -/
theorem gapOp_cover {i j ai bj : Nat} (p : Nat) (hp1 : j ≤ p) (hp2 : p < bj) :
    ∃ op ∈ gapOp i j ai bj, op.b1 ≤ p ∧ p < op.b2 := by
  have hj : j < bj := by omega
  rw [gapOp]
  by_cases hi : i < ai
  · rw [if_pos ⟨hi, hj⟩]
    exact ⟨Opcode.mk DiffTag.replace i ai j bj, List.mem_singleton.2 rfl, hp1, hp2⟩
  · rw [if_neg (fun hc => hi hc.1), if_neg hi, if_pos hj]
    exact ⟨Opcode.mk DiffTag.insert i ai j bj, List.mem_singleton.2 rfl, hp1, hp2⟩

/-- Any emitted `equal` opcode is the span of its (positive-size) block. -/
theorem eqOp_mem {blk : Block} {op : Opcode} (h : op ∈ eqOp blk) :
    1 ≤ blk.size
    ∧ op = Opcode.mk DiffTag.equal blk.ai (blk.ai + blk.size) blk.bj (blk.bj + blk.size) := by
  rw [eqOp] at h
  split at h
  · cases h
  · rcases List.mem_singleton.1 h with rfl
    exact ⟨by omega, rfl⟩

/-- The `equal` opcode covers every position of its block's `b` span. -/
theorem eqOp_cover {blk : Block} (p : Nat) (h1 : blk.bj ≤ p) (h2 : p < blk.bj + blk.size) :
    ∃ op ∈ eqOp blk, op.b1 ≤ p ∧ p < op.b2 := by
  rw [eqOp, if_neg (by omega)]
  exact ⟨Opcode.mk DiffTag.equal blk.ai (blk.ai + blk.size) blk.bj (blk.bj + blk.size),
    List.mem_singleton.2 rfl, h1, h2⟩

/-- Main opcode lemma: walking blocks that are sorted, non-overlapping and
ahead of the cursor, the emitted opcodes stay within `[j, lb)` on the `b`
side, have pairwise non-overlapping `b` spans, the `equal` opcodes are
exactly the block spans, and together the opcodes cover every position up to
the end of the last block. -/
theorem opcodesFrom_sound (lb : Nat) :
    ∀ (bl : List Block) (i j : Nat),
      (∀ blk ∈ bl, i ≤ blk.ai ∧ j ≤ blk.bj ∧ blk.bj + blk.size ≤ lb) →
      List.Pairwise BlockLe bl →
      (∀ op ∈ opcodesFrom i j bl, j ≤ op.b1 ∧ op.b1 ≤ op.b2 ∧ op.b2 ≤ lb)
      ∧ List.Pairwise (fun o1 o2 => o1.b2 ≤ o2.b1) (opcodesFrom i j bl)
      ∧ (∀ op ∈ opcodesFrom i j bl, op.tag = DiffTag.equal →
          ∃ blk ∈ bl, 1 ≤ blk.size
            ∧ op = Opcode.mk DiffTag.equal blk.ai (blk.ai + blk.size) blk.bj
                (blk.bj + blk.size))
      ∧ (∀ (h : bl ≠ []) (p : Nat), j ≤ p →
          p < (bl.getLast h).bj + (bl.getLast h).size →
          ∃ op ∈ opcodesFrom i j bl, op.b1 ≤ p ∧ p < op.b2) := by
  intro bl
  induction bl with
  | nil =>
    intro i j _ _
    refine ⟨?_, ?_, ?_, ?_⟩
    · intro op hop
      cases hop
    · exact List.Pairwise.nil
    · intro op hop
      cases hop
    · intro h
      exact absurd rfl h
  | cons blk rest ih =>
    intro i j hhead hpw
    obtain ⟨hib, hjb, hblb⟩ := hhead blk (List.mem_cons_self blk rest)
    have hpwrest : List.Pairwise BlockLe rest := (List.pairwise_cons.1 hpw).2
    have hble : ∀ x ∈ rest, BlockLe blk x := (List.pairwise_cons.1 hpw).1
    have hheadrest : ∀ x ∈ rest, blk.ai + blk.size ≤ x.ai
        ∧ blk.bj + blk.size ≤ x.bj ∧ x.bj + x.size ≤ lb :=
      fun x hx => ⟨(hble x hx).1, (hble x hx).2,
        (hhead x (List.mem_cons_of_mem blk hx)).2.2⟩
    have hrec := ih (blk.ai + blk.size) (blk.bj + blk.size) hheadrest hpwrest
    have hunfold : opcodesFrom i j (blk :: rest)
        = gapOp i j blk.ai blk.bj ++ eqOp blk
          ++ opcodesFrom (blk.ai + blk.size) (blk.bj + blk.size) rest := by
      rw [opcodesFrom]
    rw [hunfold]
    have hbounds : ∀ op ∈ gapOp i j blk.ai blk.bj ++ eqOp blk
        ++ opcodesFrom (blk.ai + blk.size) (blk.bj + blk.size) rest,
        j ≤ op.b1 ∧ op.b1 ≤ op.b2 ∧ op.b2 ≤ lb := by
      intro op hop
      rcases List.mem_append.1 hop with hop1 | hopR
      · rcases List.mem_append.1 hop1 with hopG | hopE
        · obtain ⟨_, hg1, hg2⟩ := gapOp_mem hopG
          rw [hg1, hg2]
          exact ⟨le_refl _, hjb, by omega⟩
        · obtain ⟨hsz, rfl⟩ := eqOp_mem hopE
          refine ⟨?_, ?_, ?_⟩
          · show j ≤ blk.bj
            exact hjb
          · show blk.bj ≤ blk.bj + blk.size
            omega
          · show blk.bj + blk.size ≤ lb
            exact hblb
      · obtain ⟨hr1, hr2, hr3⟩ := hrec.1 op hopR
        exact ⟨by omega, hr2, hr3⟩
    refine ⟨hbounds, ?_, ?_, ?_⟩
    · rw [List.pairwise_append]
      refine ⟨?_, hrec.2.1, ?_⟩
      · rw [List.pairwise_append]
        refine ⟨?_, ?_, ?_⟩
        · rw [gapOp]
          split
          · exact List.pairwise_singleton _ _
          · split
            · exact List.pairwise_singleton _ _
            · split
              · exact List.pairwise_singleton _ _
              · exact List.Pairwise.nil
        · rw [eqOp]
          split
          · exact List.Pairwise.nil
          · exact List.pairwise_singleton _ _
        · intro x hx y hy
          obtain ⟨_, _, hg2⟩ := gapOp_mem hx
          obtain ⟨_, rfl⟩ := eqOp_mem hy
          rw [hg2]
      · intro x hx y hy
        obtain ⟨hy1, _, _⟩ := hrec.1 y hy
        rcases List.mem_append.1 hx with hxG | hxE
        · obtain ⟨_, _, hg2⟩ := gapOp_mem hxG
          rw [hg2]
          omega
        · obtain ⟨_, rfl⟩ := eqOp_mem hxE
          show blk.bj + blk.size ≤ y.b1
          omega
    · intro op hop htag
      rcases List.mem_append.1 hop with hop1 | hopR
      · rcases List.mem_append.1 hop1 with hopG | hopE
        · exact absurd htag (gapOp_mem hopG).1
        · obtain ⟨hsz, rfl⟩ := eqOp_mem hopE
          exact ⟨blk, List.mem_cons_self blk rest, hsz, rfl⟩
      · obtain ⟨blk', hblk', hsz', heq'⟩ := hrec.2.2.1 op hopR htag
        exact ⟨blk', List.mem_cons_of_mem blk hblk', hsz', heq'⟩
    · intro h p hjp hplast
      by_cases hpg : p < blk.bj
      · obtain ⟨op, hop, hc⟩ := @gapOp_cover i _ blk.ai _ p hjp hpg
        exact ⟨op, List.mem_append.2 (Or.inl (List.mem_append.2 (Or.inl hop))), hc⟩
      · by_cases hpe : p < blk.bj + blk.size
        · obtain ⟨op, hop, hc⟩ := eqOp_cover p (by omega) hpe
          exact ⟨op, List.mem_append.2 (Or.inl (List.mem_append.2 (Or.inr hop))), hc⟩
        · by_cases hrne : rest = []
          · subst hrne
            have hgl : (([blk] : List Block).getLast h) = blk := rfl
            rw [hgl] at hplast
            omega
          · have hlast : (blk :: rest).getLast h = rest.getLast hrne := by
              rw [List.getLast_cons hrne]
            rw [hlast] at hplast
            obtain ⟨op, hop, hc⟩ := hrec.2.2.2 hrne p (by omega) hplast
            exact ⟨op, List.mem_append.2 (Or.inr hop), hc⟩

/-- Opcodes with pairwise non-overlapping spans cover each position at most
once. -/
theorem cover_unique {l : List Opcode}
    (hp : List.Pairwise (fun o1 o2 => o1.b2 ≤ o2.b1) l) {p : Nat} {o1 o2 : Opcode}
    (h1 : o1 ∈ l) (h2 : o2 ∈ l) (hc1 : o1.b1 ≤ p ∧ p < o1.b2)
    (hc2 : o2.b1 ≤ p ∧ p < o2.b2) : o1 = o2 := by
  induction l with
  | nil => cases h1
  | cons x xs ih =>
    have hhead := (List.pairwise_cons.1 hp).1
    have htail := (List.pairwise_cons.1 hp).2
    rcases List.mem_cons.1 h1 with rfl | h1'
    · rcases List.mem_cons.1 h2 with rfl | h2'
      · rfl
      · have := hhead o2 h2'
        omega
    · rcases List.mem_cons.1 h2 with rfl | h2'
      · have := hhead o1 h1'
        omega
      · exact ih htail h1' h2'

/-- The reported ranges are exactly the spans of the non-`equal` opcodes. -/
theorem mem_update_diff {base current : List Char} (hb : base ≠ []) {p : Nat} :
    coveredBy (update_diff base current) p
    ↔ ∃ op ∈ get_opcodes base current,
        op.tag ≠ DiffTag.equal ∧ op.b1 ≤ p ∧ p < op.b2 := by
  rw [coveredBy, update_diff, if_neg hb]
  constructor
  · rintro ⟨r, hr, hr1, hr2⟩
    obtain ⟨op, hop, hfop⟩ := List.mem_filterMap.1 hr
    by_cases ht : op.tag = DiffTag.equal
    · rw [if_pos ht] at hfop
      cases hfop
    · rw [if_neg ht] at hfop
      cases hfop
      exact ⟨op, hop, ht, hr1, hr2⟩
  · rintro ⟨op, hop, ht, hp1, hp2⟩
    refine ⟨(op.b1, op.b2), ?_, hp1, hp2⟩
    exact List.mem_filterMap.2 ⟨op, hop, by rw [if_neg ht]⟩

/-- Packaged soundness of `get_opcodes`: in-range spans, pairwise
non-overlapping, `equal` opcodes genuinely match the two texts, and the
opcodes cover the whole current text. -/
theorem get_opcodes_sound (a b : List Char) :
    (∀ op ∈ get_opcodes a b, op.b1 ≤ op.b2 ∧ op.b2 ≤ b.length)
    ∧ List.Pairwise (fun o1 o2 => o1.b2 ≤ o2.b1) (get_opcodes a b)
    ∧ (∀ op ∈ get_opcodes a b, op.tag = DiffTag.equal →
        op.a2 = op.a1 + (op.b2 - op.b1)
        ∧ ∀ t, t < op.b2 - op.b1 →
            ∃ ch, a[op.a1 + t]? = some ch ∧ b[op.b1 + t]? = some ch)
    ∧ (∀ p, p < b.length → ∃ op ∈ get_opcodes a b, op.b1 ≤ p ∧ p < op.b2) := by
  obtain ⟨hval, hpw, hlastq⟩ := gmb_sound a b
  have hhead : ∀ blk ∈ get_matching_blocks a b,
      0 ≤ blk.ai ∧ 0 ≤ blk.bj ∧ blk.bj + blk.size ≤ b.length :=
    fun blk hblk => ⟨Nat.zero_le _, Nat.zero_le _, (hval blk hblk).2.1⟩
  have hops := opcodesFrom_sound b.length (get_matching_blocks a b) 0 0 hhead hpw
  rw [get_opcodes]
  refine ⟨fun op hop => ⟨(hops.1 op hop).2.1, (hops.1 op hop).2.2⟩, hops.2.1, ?_, ?_⟩
  · intro op hop htag
    obtain ⟨blk, hblk, hsz, rfl⟩ := hops.2.2.1 op hop htag
    obtain ⟨hb1, hb2, hmt⟩ := hval blk hblk
    constructor
    · show blk.ai + blk.size = blk.ai + ((blk.bj + blk.size) - blk.bj)
      omega
    · show ∀ t, t < (blk.bj + blk.size) - blk.bj →
        ∃ ch, a[blk.ai + t]? = some ch ∧ b[blk.bj + t]? = some ch
      intro t ht
      exact hmt t (by omega)
  · intro p hp
    have hne : get_matching_blocks a b ≠ [] := by
      rw [get_matching_blocks]
      simp
    have hgl : (get_matching_blocks a b).getLast hne = Block.mk a.length b.length 0 := by
      have h1 := List.getLast?_eq_getLast (get_matching_blocks a b) hne
      rw [hlastq] at h1
      exact (Option.some.inj h1).symm
    apply hops.2.2.2 hne p (Nat.zero_le _)
    rw [hgl]
    show p < b.length + 0
    omega

/-! ### The identical-texts case: the matcher finds the full diagonal -/

/-- Membership in `b2j` implies the element is not popular. -/
theorem b2j_not_popular {b : List Char} {x : Char} {j : Nat} (h : j ∈ b2j b x) :
    isPopular b x = false := by
  rw [b2j] at h
  split at h
  · cases h
  · rename_i hc
    simp at hc
    exact hc

/-- Reading through `getElem?` determines `getD`. -/
theorem getD_of_getElem? {b : List Char} {j : Nat} {x : Char} (h : b[j]? = some x) :
    b.getD j default = x := by
  rw [List.getD_eq_getElem?_getD, h]
  rfl

/-- The diagonal run length is at most the number of rows. -/
theorem dia_le (b : List Char) : ∀ i, dia b i ≤ i := by
  intro i
  induction i with
  | zero => exact le_refl 0
  | succ n ih =>
    rw [dia]
    split
    · omega
    · omega

/-- The diagonal run grows through a non-popular row. -/
theorem dia_succ_np {b : List Char} {i : Nat}
    (h : isPopular b (b.getD i default) = false) :
    dia b (i + 1) = dia b i + 1 := by
  rw [dia, if_neg (by rw [h]; simp)]

/-- Comparing a position of a list with itself succeeds in range. -/
theorem charEq_self {b : List Char} {x : Nat} (h : x < b.length) :
    charEq b x b x = true := by
  rw [charEq, List.getElem?_eq_getElem h]
  simp

/-- Inner-loop invariant on identical sequences: the best match stays on the
diagonal.  Off-diagonal chain values are bounded by a diagonal run that has
already been (or is being) recorded: for `j < i` by the run ending at row
`j` (already counted in `bestsize`), for `j > i` by the run ending at row
`i` (counted once the diagonal position `i`, which precedes `j` in the
ascending position list, has been processed). -/
theorem flmInner_diag (b : List Char) (i : Nat) (hi : i < b.length) :
    ∀ (js : List Nat), List.Pairwise (· < ·) js →
      (∀ j ∈ js, j ∈ b2j b (b.getD i default)) →
      ∀ (f : Nat → Nat), (∀ j', f j' ≤ dia b i) → (∀ j', f j' ≤ dia b (j' + 1)) →
        (i = 0 ∨ f (i - 1) = dia b i) →
      ∀ (g : Nat → Nat), (∀ j', g j' ≤ dia b (i + 1)) → (∀ j', g j' ≤ dia b (j' + 1)) →
        (i ∈ js ∨ g i = dia b (i + 1)) →
      ∀ (best : Best), best.besti = best.bestj →
        best.besti + best.bestsize ≤ b.length →
        (∀ i', i' ≤ i → dia b i' ≤ best.bestsize) →
        (i ∈ js ∨ dia b (i + 1) ≤ best.bestsize) →
      (∀ j', (flmInner i 0 b.length f js g best).1 j' ≤ dia b (i + 1))
      ∧ (∀ j', (flmInner i 0 b.length f js g best).1 j' ≤ dia b (j' + 1))
      ∧ (flmInner i 0 b.length f js g best).1 i = dia b (i + 1)
      ∧ (flmInner i 0 b.length f js g best).2.besti
          = (flmInner i 0 b.length f js g best).2.bestj
      ∧ (flmInner i 0 b.length f js g best).2.besti
          + (flmInner i 0 b.length f js g best).2.bestsize ≤ b.length
      ∧ ∀ i', i' ≤ i + 1 → dia b i' ≤ (flmInner i 0 b.length f js g best).2.bestsize := by
  intro js
  induction js with
  | nil =>
    intro _ _ f _ _ _ g hg1 hg2 hgi best hbd hbb hb3 hseen
    have hgieq : g i = dia b (i + 1) := by
      rcases hgi with hgi | hgi
      · cases hgi
      · exact hgi
    have hsn : dia b (i + 1) ≤ best.bestsize := by
      rcases hseen with hseen | hseen
      · cases hseen
      · exact hseen
    refine ⟨hg1, hg2, hgieq, hbd, hbb, ?_⟩
    intro i' hi'
    by_cases hii : i' ≤ i
    · exact hb3 i' hii
    · have : i' = i + 1 := by omega
      subst this
      exact hsn
  | cons j js ih =>
    intro hpw hjs f hf1 hf2 hfe g hg1 hg2 hgi best hbd hbb hb3 hseen
    have hjmem := hjs j (List.mem_cons_self j js)
    obtain ⟨hjlen, hjchar⟩ := b2j_mem hjmem
    have hnp : isPopular b (b.getD i default) = false := b2j_not_popular hjmem
    have hchj : b.getD j default = b.getD i default := getD_of_getElem? hjchar
    have hnpj : isPopular b (b.getD j default) = false := by rw [hchj]; exact hnp
    have hdiai : dia b (i + 1) = dia b i + 1 := dia_succ_np hnp
    have hdiaj : dia b (j + 1) = dia b j + 1 := dia_succ_np hnpj
    have hpwtail := (List.pairwise_cons.1 hpw).2
    have hjlt : ∀ x ∈ js, j < x := (List.pairwise_cons.1 hpw).1
    have hjstail : ∀ x ∈ js, x ∈ b2j b (b.getD i default) :=
      fun x hx => hjs x (List.mem_cons_of_mem j hx)
    have hunfold : flmInner i 0 b.length f (j :: js) g best
        = flmInner i 0 b.length f js
            (fun j' => if j' = j then (if j = 0 then 0 else f (j - 1)) + 1 else g j')
            (if best.bestsize < (if j = 0 then 0 else f (j - 1)) + 1 then
              Best.mk (i + 1 - ((if j = 0 then 0 else f (j - 1)) + 1))
                (j + 1 - ((if j = 0 then 0 else f (j - 1)) + 1))
                ((if j = 0 then 0 else f (j - 1)) + 1)
            else best) := by
      rw [flmInner, if_neg (Nat.not_lt_zero j), if_neg (by omega : ¬ b.length ≤ j)]
    rw [hunfold]
    set K := (if j = 0 then 0 else f (j - 1)) + 1 with hKdef
    have hK1 : K ≤ dia b (i + 1) := by
      rw [hKdef, hdiai]
      by_cases hj0 : j = 0
      · rw [if_pos hj0]
        omega
      · rw [if_neg hj0]
        have := hf1 (j - 1)
        omega
    have hK2 : K ≤ dia b (j + 1) := by
      rw [hKdef, hdiaj]
      by_cases hj0 : j = 0
      · rw [if_pos hj0]
        omega
      · rw [if_neg hj0]
        have := hf2 (j - 1)
        rw [show j - 1 + 1 = j from by omega] at this
        omega
    by_cases hij : j = i
    · subst hij
      have hKexact : K = dia b (j + 1) := by
        rw [hKdef, hdiaj]
        rcases hfe with hfe | hfe
        · rw [if_pos hfe]
          rw [hfe]
          simp [dia]
        · by_cases hj0 : j = 0
          · rw [if_pos hj0, hj0]
            simp [dia]
          · rw [if_neg hj0, hfe]
      have hg1' : ∀ j', (fun j' => if j' = j then K else g j') j' ≤ dia b (j + 1) := by
        intro j'
        dsimp only
        by_cases hjj : j' = j
        · rw [if_pos hjj, hKexact]
        · rw [if_neg hjj]
          exact hg1 j'
      have hg2' : ∀ j', (fun j' => if j' = j then K else g j') j' ≤ dia b (j' + 1) := by
        intro j'
        dsimp only
        by_cases hjj : j' = j
        · subst hjj
          rw [if_pos rfl, hKexact]
        · rw [if_neg hjj]
          exact hg2 j'
      have hgi' : j ∈ js ∨ (fun j' => if j' = j then K else g j') j = dia b (j + 1) := by
        right
        dsimp only
        rw [if_pos rfl, hKexact]
      by_cases hup : best.bestsize < K
      · rw [if_pos hup]
        have hKj1 : K ≤ j + 1 := le_trans (le_of_eq hKexact) (dia_le b (j + 1))
        refine ih hpwtail hjstail f hf1 hf2 hfe _ hg1' hg2' hgi' _ ?_ ?_ ?_ ?_
        · show j + 1 - K = j + 1 - K
          rfl
        · show j + 1 - K + K ≤ b.length
          omega
        · intro i' hi'
          show dia b i' ≤ K
          exact le_trans (le_trans (hb3 i' hi') (le_of_lt hup)) (le_refl K)
        · right
          show dia b (j + 1) ≤ K
          rw [hKexact]
      · rw [if_neg hup]
        refine ih hpwtail hjstail f hf1 hf2 hfe _ hg1' hg2' hgi' _ hbd hbb hb3 ?_
        right
        rw [← hKexact]
        omega
    · have hKb : K ≤ best.bestsize := by
        by_cases hji : j < i
        · have := hb3 (j + 1) (by omega)
          omega
        · have hseen' : dia b (i + 1) ≤ best.bestsize := by
            rcases hseen with hs | hs
            · rcases List.mem_cons.1 hs with hs1 | hs2
              · exact absurd hs1.symm hij
              · have := hjlt i hs2
                omega
            · exact hs
          omega
      rw [if_neg (by omega)]
      have hg1' : ∀ j', (fun j' => if j' = j then K else g j') j' ≤ dia b (i + 1) := by
        intro j'
        dsimp only
        by_cases hjj : j' = j
        · rw [if_pos hjj]
          exact hK1
        · rw [if_neg hjj]
          exact hg1 j'
      have hg2' : ∀ j', (fun j' => if j' = j then K else g j') j' ≤ dia b (j' + 1) := by
        intro j'
        dsimp only
        by_cases hjj : j' = j
        · subst hjj
          rw [if_pos rfl]
          exact hK2
        · rw [if_neg hjj]
          exact hg2 j'
      have hgi' : i ∈ js ∨ (fun j' => if j' = j then K else g j') i = dia b (i + 1) := by
        rcases hgi with hs | hs
        · rcases List.mem_cons.1 hs with hs1 | hs2
          · exact absurd hs1 (fun hc => hij hc.symm)
          · exact Or.inl hs2
        · right
          dsimp only
          rw [if_neg (fun hc => hij hc.symm)]
          exact hs
      have hseen2 : i ∈ js ∨ dia b (i + 1) ≤ best.bestsize := by
        rcases hseen with hs | hs
        · rcases List.mem_cons.1 hs with hs1 | hs2
          · exact absurd hs1 (fun hc => hij hc.symm)
          · exact Or.inl hs2
        · exact Or.inr hs
      exact ih hpwtail hjstail f hf1 hf2 hfe _ hg1' hg2' hgi' best hbd hbb hb3 hseen2

/-- Row-loop invariant on identical sequences: after any prefix of rows the
best match is diagonal, in range, and at least as long as every completed
diagonal run. -/
theorem flmRows_diag (b : List Char) :
    ∀ (len istart : Nat), istart + len ≤ b.length →
      ∀ (f : Nat → Nat), (∀ j', f j' ≤ dia b istart) → (∀ j', f j' ≤ dia b (j' + 1)) →
        (istart = 0 ∨ f (istart - 1) = dia b istart) →
      ∀ (best : Best), best.besti = best.bestj →
        best.besti + best.bestsize ≤ b.length →
        (∀ i', i' ≤ istart → dia b i' ≤ best.bestsize) →
      (flmRows b b 0 b.length (List.range' istart len) f best).besti
        = (flmRows b b 0 b.length (List.range' istart len) f best).bestj
      ∧ (flmRows b b 0 b.length (List.range' istart len) f best).besti
          + (flmRows b b 0 b.length (List.range' istart len) f best).bestsize
        ≤ b.length := by
  intro len
  induction len with
  | zero =>
    intro istart _ f _ _ _ best hbd hbb _
    exact ⟨hbd, hbb⟩
  | succ n ih =>
    intro istart hlen f hf1 hf2 hfe best hbd hbb hb3
    rw [List.range'_succ]
    have hi : istart < b.length := by omega
    have hjs : ∀ j ∈ b2j b (b.getD istart default), j ∈ b2j b (b.getD istart default) :=
      fun j hj => hj
    have hgseen : istart ∈ b2j b (b.getD istart default)
        ∨ (fun _ : Nat => 0) istart = dia b (istart + 1) := by
      by_cases hpop : isPopular b (b.getD istart default) = true
      · right
        show 0 = dia b (istart + 1)
        rw [dia, if_pos (by rw [hpop])]
      · left
        exact b2j_self hi (by
          cases hpb : isPopular b (b.getD istart default)
          · rfl
          · exact absurd hpb hpop)
    have hbseen : istart ∈ b2j b (b.getD istart default)
        ∨ dia b (istart + 1) ≤ best.bestsize := by
      rcases hgseen with hg | hg
      · exact Or.inl hg
      · right
        have hg' : dia b (istart + 1) = 0 := hg.symm
        omega
    have hinner := flmInner_diag b istart hi (b2j b (b.getD istart default))
      (b2j_sorted b (b.getD istart default)) hjs f hf1 hf2 hfe
      (fun _ => 0) (fun j' => Nat.zero_le _) (fun j' => Nat.zero_le _) hgseen
      best hbd hbb hb3 hbseen
    rw [flmRows]
    exact ih (istart + 1) (by omega) _ hinner.1 hinner.2.1 (Or.inr hinner.2.2.1)
      _ hinner.2.2.2.1 hinner.2.2.2.2.1
      (fun i' hi' => hinner.2.2.2.2.2 i' hi')

/-- On identical sequences, the left extension pulls a diagonal match back to
the origin. -/
theorem extendLeft_diag (b : List Char) :
    ∀ (fuel : Nat) (best : Best), best.besti ≤ fuel → best.besti = best.bestj →
      best.besti + best.bestsize ≤ b.length →
      extendLeftGo b b 0 0 fuel best = Best.mk 0 0 (best.bestsize + best.besti) := by
  intro fuel
  induction fuel with
  | zero =>
    intro best hbn hbd hbb
    have hz : best.besti = 0 := by omega
    show best = Best.mk 0 0 (best.bestsize + best.besti)
    cases best with
    | mk p q s =>
      simp only at hz hbd ⊢
      subst hz
      rw [← hbd]
      rw [Nat.add_zero]
  | succ n ih =>
    intro best hbn hbd hbb
    by_cases hz : best.besti = 0
    · rw [extendLeftGo, if_neg (by rintro ⟨h1, _, _⟩; omega)]
      cases best with
      | mk p q s =>
        simp only at hz hbd ⊢
        subst hz
        rw [← hbd]
        rw [Nat.add_zero]
    · have hchar : charEq b (best.besti - 1) b (best.bestj - 1) = true := by
        rw [← hbd]
        exact charEq_self (by omega)
      rw [extendLeftGo, if_pos ⟨by omega, by omega, hchar⟩]
      have hrec := ih (Best.mk (best.besti - 1) (best.bestj - 1) (best.bestsize + 1))
        (by show best.besti - 1 ≤ n; omega)
        (by show best.besti - 1 = best.bestj - 1; omega)
        (by show best.besti - 1 + (best.bestsize + 1) ≤ b.length; omega)
      rw [hrec]
      show Best.mk 0 0 (best.bestsize + 1 + (best.besti - 1))
        = Best.mk 0 0 (best.bestsize + best.besti)
      congr 1
      omega

/-- On identical sequences, the right extension pushes a diagonal match at
the origin out to the whole text. -/
theorem extendRight_diag (b : List Char) :
    ∀ (fuel : Nat) (best : Best), b.length - (best.besti + best.bestsize) ≤ fuel →
      best.besti = 0 → best.bestj = 0 → best.bestsize ≤ b.length →
      extendRightGo b b b.length b.length fuel best = Best.mk 0 0 b.length := by
  intro fuel
  induction fuel with
  | zero =>
    intro best hbn hbi hbj hbs
    have hfull : best.bestsize = b.length := by omega
    show best = Best.mk 0 0 b.length
    cases best with
    | mk p q s =>
      simp only at hbi hbj hfull
      subst hbi hbj hfull
      rfl
  | succ n ih =>
    intro best hbn hbi hbj hbs
    by_cases hfull : best.bestsize = b.length
    · rw [extendRightGo, if_neg (by rintro ⟨h1, _, _⟩; omega)]
      cases best with
      | mk p q s =>
        simp only at hbi hbj hfull
        subst hbi hbj hfull
        rfl
    · have hchar : charEq b (best.besti + best.bestsize) b (best.bestj + best.bestsize)
          = true := by
        rw [hbi, hbj]
        exact charEq_self (by omega)
      rw [extendRightGo, if_pos ⟨by omega, by omega, hchar⟩]
      exact ih (Best.mk best.besti best.bestj (best.bestsize + 1))
        (by show b.length - (best.besti + (best.bestsize + 1)) ≤ n; omega)
        hbi hbj
        (by show best.bestsize + 1 ≤ b.length; omega)

/-- On identical sequences `find_longest_match` over the full windows
returns the whole-text match. -/
theorem flm_diag (b : List Char) :
    find_longest_match b b 0 b.length 0 b.length = Best.mk 0 0 b.length := by
  rw [find_longest_match, extendRight, extendLeft]
  have hrows := flmRows_diag b (b.length - 0) 0 (by omega) (fun _ => 0)
    (fun j' => Nat.zero_le _) (fun j' => Nat.zero_le _) (Or.inl rfl)
    (Best.mk 0 0 0) rfl (by show 0 + 0 ≤ b.length; omega)
    (by
      intro i' hi'
      have : i' = 0 := by omega
      subst this
      show dia b 0 ≤ 0
      rw [dia])
  set m := flmRows b b 0 b.length (List.range' 0 (b.length - 0)) (fun _ => 0)
    (Best.mk 0 0 0) with hm
  rw [extendLeft_diag b m.besti m (le_refl _) hrows.1 hrows.2]
  exact extendRight_diag b _ (Best.mk 0 0 (m.bestsize + m.besti)) (le_refl _) rfl rfl
    (by show m.bestsize + m.besti ≤ b.length; omega)

/-- On an identical non-empty text the highlighter reports no ranges: the
matcher returns the single full-text block, which becomes one `equal`
opcode. -/
theorem update_diff_self (b : List Char) (hb : b ≠ []) : update_diff b b = [] := by
  have hn : 0 < b.length := List.length_pos.2 hb
  have hmb : matching_blocks b b = [Block.mk 0 0 b.length] := by
    rw [matching_blocks]
    rw [show b.length + b.length = (b.length + b.length - 1) + 1 from by omega]
    rw [matching_blocks_fuel, flm_diag b]
    rw [if_neg (by show ¬ b.length = 0; omega)]
    rw [if_neg (by show ¬ (0 < 0 ∧ 0 < 0); omega)]
    rw [if_neg (by show ¬ (0 + b.length < b.length ∧ 0 + b.length < b.length); omega)]
    rfl
  have hgmb : get_matching_blocks b b
      = [Block.mk 0 0 b.length, Block.mk b.length b.length 0] := by
    rw [get_matching_blocks, hmb]
    have h1 : mergeAdj (Block.mk 0 0 0) [Block.mk 0 0 b.length]
        = [Block.mk 0 0 b.length] := by
      rw [mergeAdj, if_pos ⟨rfl, rfl⟩, mergeAdj, if_neg (by show ¬ 0 + b.length = 0; omega)]
      rw [show 0 + b.length = b.length from Nat.zero_add _]
    rw [h1]
    rfl
  have hops : get_opcodes b b
      = [Opcode.mk DiffTag.equal 0 (0 + b.length) 0 (0 + b.length)] := by
    rw [get_opcodes, hgmb, opcodesFrom]
    have hgap1 : gapOp 0 0 (Block.mk 0 0 b.length).ai (Block.mk 0 0 b.length).bj = [] := by
      rw [gapOp]
      rw [if_neg (by show ¬ (0 < 0 ∧ 0 < 0); omega)]
      rw [if_neg (by show ¬ (0 < 0); omega)]
      rw [if_neg (by show ¬ (0 < 0); omega)]
    have heq1 : eqOp (Block.mk 0 0 b.length)
        = [Opcode.mk DiffTag.equal 0 (0 + b.length) 0 (0 + b.length)] := by
      rw [eqOp, if_neg (by show ¬ b.length = 0; omega)]
    rw [hgap1, heq1, opcodesFrom]
    have hgap2 : gapOp ((Block.mk 0 0 b.length).ai + (Block.mk 0 0 b.length).size)
        ((Block.mk 0 0 b.length).bj + (Block.mk 0 0 b.length).size)
        (Block.mk b.length b.length 0).ai (Block.mk b.length b.length 0).bj = [] := by
      rw [gapOp]
      rw [if_neg (by show ¬ (0 + b.length < b.length ∧ 0 + b.length < b.length); omega)]
      rw [if_neg (by show ¬ (0 + b.length < b.length); omega)]
      rw [if_neg (by show ¬ (0 + b.length < b.length); omega)]
    have heq2 : eqOp (Block.mk b.length b.length 0) = [] := by
      rw [eqOp, if_pos rfl]
    rw [hgap2, heq2, opcodesFrom]
    rfl
  rw [update_diff, if_neg hb, hops]
  rfl

/-- C9: with a non-empty baseline, `update_diff` reports exactly the
non-`equal` spans of the computed alignment as offsets into the current
text: a position is in a reported range iff the alignment does not match it
to the baseline, the `equal` spans genuinely coincide with the baseline, the
ranges stay within the current text, recomputing against an identical text
reports nothing, and baseline `"abc"` against current `"abd"` reports
exactly the differing suffix `[2, 3)`. -/
theorem update_diff_alignment_spec (base current : List Char) (hbase : base ≠ []) :
    (∀ p, p < current.length →
      (coveredBy (update_diff base current) p ↔ ¬ inEqualSpan (get_opcodes base current) p))
    ∧ (∀ op ∈ get_opcodes base current, op.tag = DiffTag.equal →
        op.a2 = op.a1 + (op.b2 - op.b1)
        ∧ ∀ t, t < op.b2 - op.b1 →
            ∃ ch, base[op.a1 + t]? = some ch ∧ current[op.b1 + t]? = some ch)
    ∧ (∀ r ∈ update_diff base current, r.1 ≤ r.2 ∧ r.2 ≤ current.length)
    ∧ (base = current → update_diff base current = [])
    ∧ update_diff ['a', 'b', 'c'] ['a', 'b', 'd'] = [(2, 3)] := by
  obtain ⟨hbounds, hpw, hequal, hcover⟩ := get_opcodes_sound base current
  refine ⟨?_, hequal, ?_, ?_, ?_⟩
  · intro p hp
    constructor
    · intro hcov hin
      obtain ⟨op1, hop1, ht1, hc1a, hc1b⟩ := (mem_update_diff hbase).1 hcov
      have hin' : ∃ op ∈ get_opcodes base current,
          op.tag = DiffTag.equal ∧ op.b1 ≤ p ∧ p < op.b2 := hin
      obtain ⟨op2, hop2, ht2, hc2a, hc2b⟩ := hin'
      have heq12 := cover_unique hpw hop1 hop2 ⟨hc1a, hc1b⟩ ⟨hc2a, hc2b⟩
      rw [heq12] at ht1
      exact ht1 ht2
    · intro hnin
      obtain ⟨op, hop, hca, hcb⟩ := hcover p hp
      by_cases ht : op.tag = DiffTag.equal
      · exact absurd (show inEqualSpan (get_opcodes base current) p from
          ⟨op, hop, ht, hca, hcb⟩) hnin
      · exact (mem_update_diff hbase).2 ⟨op, hop, ht, hca, hcb⟩
  · intro r hr
    rw [update_diff, if_neg hbase] at hr
    obtain ⟨op, hop, hfop⟩ := List.mem_filterMap.1 hr
    by_cases ht : op.tag = DiffTag.equal
    · rw [if_pos ht] at hfop
      cases hfop
    · rw [if_neg ht] at hfop
      cases hfop
      exact hbounds op hop
  · intro heq
    rw [heq]
    exact update_diff_self current (by rw [← heq]; exact hbase)
  · rfl

/-- C9 witness: the `"abc"`/`"abd"` example and the identical-text case at a
concrete input. -/
theorem update_diff_alignment_spec_witness :
    update_diff ['a', 'b', 'c'] ['a', 'b', 'd'] = [(2, 3)]
    ∧ update_diff ['a', 'b'] ['a', 'b'] = [] := by
  refine ⟨(update_diff_alignment_spec ['a', 'b', 'c'] ['a', 'b', 'd'] (by simp)).2.2.2.2, ?_⟩
  exact (update_diff_alignment_spec ['a', 'b'] ['a', 'b'] (by simp)).2.2.2.1 rfl

/-- C10: with an empty stored baseline the changed-range list is empty no
matter what the current text is, so highlighting is disabled until a
non-empty baseline is set. -/
theorem update_diff_empty_base_disables (c : List Char) (h : c ≠ []) :
    update_diff [] c = [] := by
  rw [update_diff, if_pos rfl]

/-- C10 witness: an empty baseline against a concrete non-empty text. -/
theorem update_diff_empty_base_disables_witness :
    update_diff [] ['x', 'y'] = [] :=
  update_diff_empty_base_disables ['x', 'y'] (by simp)
